import Mathlib

/-!
Shallow embedding of the lcptools repository (f0t1h/lcptools) in Lean 4.

The canonical implementation modelled here is the packed-64-bit core
implementation of `src/lcptools_ho.h` together with the drivers of
`src/lps.c` and the alphabet tables of `src/encoding.c`.  Strings are
modelled as lists of byte values (`List Nat`); pointer reads are modelled
by `List.getD` with default byte 0, matching a read of the terminating
NUL for one-past-the-end accesses.  Machine integers are modelled as
`Nat` with explicit `% 2^32` / `% 2^64` truncation where the C code
truncates; `int` values that can be negative are modelled as `Int`.
`uint64` left shifts are modelled as mathematical shifts followed by
truncation modulo `2^64`.
-/

namespace Lcp

/-- Forward alphabet table after `LCP_INIT` (`src/encoding.c`, `LCP_INIT2`):
A/a ↦ 0, C/c ↦ 1, G/g ↦ 2, T/t ↦ 3, every other index < 128 is set to -1
by the initialisation loop.  (Indices ≥ 128 would be out-of-bounds reads
in C; the model extends with -1.) -/
def alphabet (c : Nat) : Int :=
  if c = 65 ∨ c = 97 then 0
  else if c = 67 ∨ c = 99 then 1
  else if c = 71 ∨ c = 103 then 2
  else if c = 84 ∨ c = 116 then 3
  else -1

/-- Reverse-complement alphabet table after `LCP_INIT`: A/a ↦ 3, C/c ↦ 2,
G/g ↦ 1, T/t ↦ 0.  `LCP_INIT2` never resets the other entries of
`rc_alphabet`, so they keep their zero-initialised value 0 (C globals). -/
def rc_alphabet (c : Nat) : Int :=
  if c = 65 ∨ c = 97 then 3
  else if c = 67 ∨ c = 99 then 2
  else if c = 71 ∨ c = 103 then 1
  else if c = 84 ∨ c = 116 then 0
  else 0

/-- Byte read through a C pointer: in-range list entry, 0 (the NUL
terminator) one past the end. -/
def getb (s : List Nat) (i : Nat) : Nat := s.getD i 0

/-- Forward table lookup at string position `i`. -/
def a_at (s : List Nat) (i : Nat) : Int := alphabet (getb s i)

/-- Reverse-complement table lookup at string position `i`. -/
def rc_at (s : List Nat) (i : Nat) : Int := rc_alphabet (getb s i)

/-- The packed core value (`struct core` of `src/lcptools_ho.h`):
`bit_size : uint32`, `bit_rep : uint64`, `label : uint32`,
`start`, `end : uint64`.  The C field `end` is called `stop` here
because `end` is a Lean keyword. -/
structure Core where
  bit_size : Nat
  bit_rep : Nat
  label : Nat
  start : Nat
  stop : Nat
deriving Repr, DecidableEq

/-- Default core used for modelling out-of-range array reads. -/
def defCore : Core := ⟨0, 0, 0, 0, 0⟩

/-- Model of a C `label |= e` where `label` is `uint32` and `e` an `int`
expression: `e` is truncated to 32 bits (two's complement) and or-ed in. -/
def or32 (l : Nat) (e : Int) : Nat := l ||| (e % (2 ^ 32 : Int)).toNat

/-- The constructor `init_core1` of `lcptools_ho.h` (packed form): builds a
level-1 core from the raw symbols `s[i .. i+distance)` using the forward
table.  A C `int << k` is modelled as multiplication by `2^k` (two's
complement for negative table values, as produced by gcc). -/
def init_core1 (s : List Nat) (i distance start stop : Nat) : Core :=
  let lab0 := or32 0 (((distance - 2) <<< 6 : Nat) : Int)
  let lab1 := or32 lab0 (a_at s i * 16)
  let lab2 := or32 lab1 (a_at s (i + distance - 2) * 4)
  let lab := or32 lab2 (a_at s (i + distance - 1))
  { bit_size := (2 * distance) % 2 ^ 32
    bit_rep := 0x8000000000000000 ||| lab
    label := lab
    start := start
    stop := stop }

/-- The constructor `init_core2`: same as `init_core1` but with the
reverse-complement table. -/
def init_core2 (s : List Nat) (i distance start stop : Nat) : Core :=
  let lab0 := or32 0 (((distance - 2) <<< 6 : Nat) : Int)
  let lab1 := or32 lab0 (rc_at s i * 16)
  let lab2 := or32 lab1 (rc_at s (i + distance - 2) * 4)
  let lab := or32 lab2 (rc_at s (i + distance - 1))
  { bit_size := (2 * distance) % 2 ^ 32
    bit_rep := 0x8000000000000000 ||| lab
    label := lab
    start := start
    stop := stop }

/-- One mixing round of the MurmurHash3-32 body (32-bit arithmetic). -/
def murmurRound (h1 k0 : Nat) : Nat :=
  let c1 := 0xcc9e2d51
  let c2 := 0x1b873593
  let k1 := (k0 * c1) % 2 ^ 32
  let k2 := ((k1 <<< 15) ||| (k1 >>> 17)) % 2 ^ 32
  let k3 := (k2 * c2) % 2 ^ 32
  let h2 := h1 ^^^ k3
  let h3 := ((h2 <<< 15) ||| (h2 >>> 17)) % 2 ^ 32
  (h3 * 5 + 0xe6546b64) % 2 ^ 32

/-- MurmurHash3_32 (`lcptools_ho.h`) specialised to a 16-byte key of four
32-bit words, the only way the repository calls it (`init_core3`). -/
def MurmurHash3_32x4 (d0 d1 d2 d3 seed : Nat) : Nat :=
  let h1 := murmurRound (murmurRound (murmurRound (murmurRound seed d0) d1) d2) d3
  let h2 := h1 ^^^ 16
  let h3 := h2 ^^^ (h2 >>> 16)
  let h4 := (h3 * 0x85ebca6b) % 2 ^ 32
  let h5 := h4 ^^^ (h4 >>> 13)
  let h6 := (h5 * 0xc2b2ae35) % 2 ^ 32
  h6 ^^^ (h6 >>> 16)

/-- Step of the bit-concatenation loop of `init_core3`: or in one child's
`bit_rep` shifted by the accumulated index (uint64 arithmetic). -/
def catStep (acc : Nat × Nat) (c : Core) : Nat × Nat :=
  (acc.1 ||| (c.bit_rep <<< acc.2) % 2 ^ 64, acc.2 + c.bit_size)

/-- The child-run constructor `init_core3` of `lcptools_ho.h` (packed form):
concatenates the children's bit representations low-to-high (last child at
the low end), masks off the top bit, clamps `bit_size` to 63 and labels the
result with a Murmur hash of the first, second-last and last child labels
and the child count minus 2.  The C pointer range `[begin, begin+distance)`
is passed as the list `children`. -/
def init_core3 (children : List Core) : Core :=
  let d := children.length
  let bs := (children.foldl (fun a c => a + c.bit_size) 0) % 2 ^ 32
  let rep := (children.reverse.foldl catStep (0, 0)).1
  { bit_size := min bs 63
    bit_rep := 0x7FFFFFFFFFFFFFFF &&& rep
    label := MurmurHash3_32x4 (children.headD defCore).label
      (children.getD (d - 2) defCore).label
      (children.getD (d - 1) defCore).label ((d - 2) % 2 ^ 32) 42
    start := (children.headD defCore).start
    stop := (children.getD (d - 1) defCore).stop }

/-- Halving loop behind `ctz64`, with enough fuel for any `uint64`. -/
def ctzAux : Nat → Nat → Nat
  | 0, _ => 0
  | fuel + 1, n => if n % 2 = 1 then 0 else ctzAux fuel (n / 2) + 1

/-- Number of trailing zero bits (`__builtin_ctzll`) of a nonzero
`uint64`; the C builtin is undefined at 0 (the model returns 64). -/
def ctz64 (n : Nat) : Nat :=
  if n = 0 then 64 else ctzAux 64 n

/-- Halving loop behind `blen`, with enough fuel for any `uint64`. -/
def blenAux : Nat → Nat → Nat
  | 0, _ => 0
  | fuel + 1, n => if n = 0 then 0 else blenAux fuel (n / 2) + 1

/-- Value of `64 - __builtin_clzll x` for a nonzero `uint64` `x` (the
number of binary digits of `x`); 0 for `x = 0`, where the C builtin is
undefined. -/
def blen (x : Nat) : Nat := blenAux 64 x

/-- The DCT compression `core_compress` of `lcptools_ho.h` (packed form).
Mutation of `right_core` is modelled by returning the new right core.
The level-1 branch compares last symbol codes, middle symbol codes,
middle-run counts and first symbol codes of the two level-1 cores; the
upper-level branch encodes the lowest differing bit position and its
parity. -/
def core_compress (left right : Core) : Core :=
  if (left.bit_rep).testBit 63 then
    let l3 := left.bit_rep &&& 3
    let l2 := (left.bit_rep >>> 2) &&& 3
    let lmc := (left.bit_rep &&& 0x7FFFFFFFFFFFFFFF) >>> 6
    let l1 := (left.bit_rep >>> 4) &&& 3
    let r3 := right.bit_rep &&& 3
    let r2 := (right.bit_rep >>> 2) &&& 3
    let rmc := (right.bit_rep &&& 0x7FFFFFFFFFFFFFFF) >>> 6
    let r1 := (right.bit_rep >>> 4) &&& 3
    if l3 ≠ r3 then
      let rep := if (l3 &&& 1) ≠ (r3 &&& 1) then r3 &&& 1 else 2 + ((r3 >>> 1) &&& 1)
      { right with bit_rep := rep, bit_size := 2, start := left.start }
    else if l2 ≠ r2 then
      let rep := if (l2 &&& 1) ≠ (r2 &&& 1) then 4 + (r2 &&& 1) else 6 + ((r2 >>> 1) &&& 1)
      { right with bit_rep := rep, bit_size := blen rep, start := left.start }
    else if lmc ≠ rmc then
      let rep :=
        if lmc < rmc then
          if (l1 &&& 1) ≠ (r2 &&& 1) then (4 * (lmc + 1) + (r2 &&& 1)) % 2 ^ 64
          else (2 * (2 * (lmc + 1) + 1) + ((r2 >>> 1) &&& 1)) % 2 ^ 64
        else
          if (l2 &&& 1) ≠ (r1 &&& 1) then (4 * (rmc + 1) + (r1 &&& 1)) % 2 ^ 64
          else (2 * (2 * (rmc + 1) + 1) + ((r1 >>> 1) &&& 1)) % 2 ^ 64
      { right with bit_rep := rep, bit_size := blen rep, start := left.start }
    else if l1 ≠ r1 then
      let rep :=
        if (l1 &&& 1) ≠ (r1 &&& 1) then (4 * (lmc + 1) + (r1 &&& 1)) % 2 ^ 64
        else (2 * (2 * (lmc + 1) + 1) + ((r1 >>> 1) &&& 1)) % 2 ^ 64
      { right with bit_rep := rep, bit_size := blen rep, start := left.start }
    else
      let rep := (2 * right.bit_size) % 2 ^ 64
      { right with bit_rep := rep, bit_size := blen rep, start := left.start }
  else
    let fdi0 := if left.bit_rep ≠ right.bit_rep
      then ctz64 (left.bit_rep ^^^ right.bit_rep) else right.bit_size
    let fdi := min fdi0 (min left.bit_size right.bit_size)
    let rep := (2 * fdi + ((right.bit_rep >>> fdi) &&& 1)) % 2 ^ 64
    let bs0 := if rep = 0 then 2 else blen rep
    { right with bit_rep := rep, bit_size := max bs0 2, start := left.start }

/-- Packed core comparisons of `lcptools_ho.h`: plain `bit_rep` compare. -/
def core_eqb (lhs rhs : Core) : Bool := lhs.bit_rep = rhs.bit_rep

/-- Packed `core_neq`. -/
def core_neqb (lhs rhs : Core) : Bool := lhs.bit_rep ≠ rhs.bit_rep

/-- Packed `core_gt`. -/
def core_gtb (lhs rhs : Core) : Bool := rhs.bit_rep < lhs.bit_rep

/-- Packed `core_lt`. -/
def core_ltb (lhs rhs : Core) : Bool := lhs.bit_rep < rhs.bit_rep

/-- Packed `core_geq`. -/
def core_geqb (lhs rhs : Core) : Bool := rhs.bit_rep ≤ lhs.bit_rep

/-- Packed `core_leq`. -/
def core_leqb (lhs rhs : Core) : Bool := lhs.bit_rep ≤ rhs.bit_rep

/-- Scan state of `parse1` (`src/lps.c`): `it2` is the index one past the
end of the previously emitted core (sentinel: the string length, modelling
the initialisation `it2 = end`), `lastInvalid` the index of the last
invalid symbol seen (`-1` initially). -/
structure P1St where
  it2 : Nat
  lastInvalid : Int
deriving Repr, DecidableEq

/-- Fuel recursion behind `runLen1`; the fuel bounds the remaining
iterations (`s.length - t` at the top-level call). -/
def runLen1Aux (s : List Nat) : Nat → Nat → Nat
  | 0, _ => 0
  | fuel + 1, t =>
    if t < s.length ∧ a_at s (t - 1) = a_at s t then runLen1Aux s fuel (t + 1) + 1 else 0

/-- Length of the equal-run loop of the RINT branch of `parse1`: number of
iterations of `while (temp < end && alphabet[*(temp-1)] == alphabet[*temp])`
started at `temp = t`. -/
def runLen1 (s : List Nat) (t : Nat) : Nat := runLen1Aux s (s.length - t) t

/-- SSEQ back-fill of `parse1`: before emitting a core at `i`, if the gap
guard `it2 < it1 && last_invalid_char_index < it2 - begin - 1` holds, a
connector core spanning `[it2-1, i+1)` is emitted. -/
def sseq1 (s : List Nat) (off i : Nat) (st : P1St) : List Core :=
  if st.it2 < i ∧ st.lastInvalid < (st.it2 : Int) - 1 then
    [init_core1 s (st.it2 - 1) (i - st.it2 + 2) (st.it2 - 1 + off) (i + 1 + off)]
  else []

/-- One iteration of the scan loop of `parse1` (`src/lps.c`) at position
`i`: returns the cores emitted at this position and the successor state. -/
def parse1Step (s : List Nat) (off i : Nat) (st : P1St) : List Core × P1St :=
  let n := s.length
  if a_at s i = -1 then ([], { st with lastInvalid := (i : Int) })
  else if a_at s i = a_at s (i + 1) then ([], st)
  else if a_at s (i + 1) = a_at s (i + 2) ∧ i + 2 + runLen1 s (i + 2) ≠ n then
    let mc := 1 + runLen1 s (i + 2)
    let it2 := i + 2 + mc
    (sseq1 s off i st ++ [init_core1 s i (2 + mc) (i + off) (it2 + off)],
      { st with it2 := it2 })
  else if a_at s i > a_at s (i + 1) ∧ a_at s (i + 1) < a_at s (i + 2) then
    (sseq1 s off i st ++ [init_core1 s i 3 (i + off) (i + 3 + off)],
      { st with it2 := i + 3 })
  else if i = 0 then ([], st)
  else if i + 3 < n ∧ a_at s i < a_at s (i + 1) ∧ a_at s (i + 1) > a_at s (i + 2) ∧
      a_at s (i - 1) ≤ a_at s i ∧ a_at s (i + 2) ≥ a_at s (i + 3) then
    (sseq1 s off i st ++ [init_core1 s i 3 (i + off) (i + 3 + off)],
      { st with it2 := i + 3 })
  else ([], st)

/-- Fuel recursion behind the scan loop of `parse1`; the fuel bounds the
remaining iterations (`s.length - i` at the top-level call). -/
def parse1Go (s : List Nat) (off : Nat) : Nat → Nat → P1St → List Core
  | 0, _, _ => []
  | fuel + 1, i, st =>
    if i + 2 < s.length then
      let p := parse1Step s off i st
      p.1 ++ parse1Go s off fuel (i + 1) p.2
    else []

/-- The level-1 forward parser `parse1` of `src/lps.c` (packed cores):
the scan loop `for (; it1 + 2 < end; it1++)` from `i = 0` with sentinel
state `it2 = end`, `last_invalid_char_index = -1`. -/
def parse1 (s : List Nat) (off : Nat) : List Core :=
  parse1Go s off s.length 0 ⟨s.length, -1⟩

/-- Fuel recursion behind `runLen3`. -/
def runLen3Aux (cs : List Core) : Nat → Nat → Nat
  | 0, _ => 0
  | fuel + 1, t =>
    if t < cs.length ∧ core_eqb (cs.getD (t - 1) defCore) (cs.getD t defCore) then
      runLen3Aux cs fuel (t + 1) + 1
    else 0

/-- Run loop of the RINT branch of `parse3`, comparing packed `bit_rep`s. -/
def runLen3 (cs : List Core) (t : Nat) : Nat := runLen3Aux cs (cs.length - t) t

/-- SSEQ back-fill of `parse3` (guard `it2 < it1` only). -/
def sseq3 (cs : List Core) (i : Nat) (it2 : Nat) : List Core :=
  if it2 < i then [init_core3 ((cs.drop (it2 - 1)).take (i - it2 + 2))] else []

/-- One iteration of the scan loop of `parse3` (`src/lps.c`) at index `i`;
`it2` is the index one past the previously emitted core (sentinel: input
length). -/
def parse3Step (cs : List Core) (i it2 : Nat) : List Core × Nat :=
  let n := cs.length
  let c := fun j => cs.getD j defCore
  if core_eqb (c i) (c (i + 1)) then ([], it2)
  else if core_eqb (c (i + 1)) (c (i + 2)) ∧ i + 2 + runLen3 cs (i + 2) ≠ n then
    let mc := 1 + runLen3 cs (i + 2)
    let it2n := i + 2 + mc
    (sseq3 cs i it2 ++ [init_core3 ((cs.drop i).take (2 + mc))], it2n)
  else if core_gtb (c i) (c (i + 1)) ∧ core_ltb (c (i + 1)) (c (i + 2)) then
    (sseq3 cs i it2 ++ [init_core3 ((cs.drop i).take 3)], i + 3)
  else if i = 0 then ([], it2)
  else if i + 3 < n ∧ core_ltb (c i) (c (i + 1)) ∧ core_gtb (c (i + 1)) (c (i + 2)) ∧
      core_leqb (c (i - 1)) (c i) ∧ core_geqb (c (i + 2)) (c (i + 3)) then
    (sseq3 cs i it2 ++ [init_core3 ((cs.drop i).take 3)], i + 3)
  else ([], it2)

/-- Fuel recursion behind the scan loop of `parse3`. -/
def parse3Go (cs : List Core) : Nat → Nat → Nat → List Core
  | 0, _, _ => []
  | fuel + 1, i, it2 =>
    if i + 2 < cs.length then
      let p := parse3Step cs i it2
      p.1 ++ parse3Go cs fuel (i + 1) p.2
    else []

/-- The level-N parser `parse3` of `src/lps.c`: scans a list of compressed
cores and emits next-level cores built with `init_core3`. -/
def parse3 (cs : List Core) : List Core :=
  parse3Go cs cs.length 0 cs.length

/-- The parse container `struct lps`: level and the owned core sequence
(the C `size` field is the list length). -/
structure Lps where
  level : Int
  cores : List Core
deriving Repr, DecidableEq

/-- `init_lps` of `src/lps.c`: level-1 forward parse of the whole string. -/
def init_lps (s : List Nat) : Lps := ⟨1, parse1 s 0⟩

/-- `init_lps_offset`: level-1 forward parse with an absolute offset. -/
def init_lps_offset (s : List Nat) (off : Nat) : Lps := ⟨1, parse1 s off⟩

/-- The right-to-left DCT pass of `lcp_dct` (`DCT_ITERATION_COUNT = 1`):
each core except the first is replaced by its compression against its
original left neighbour (the C loop runs right-to-left, so every
`core_compress` reads the uncompressed left core). -/
def dctList : List Core → List Core
  | [] => []
  | c :: rest => c :: List.zipWith core_compress (c :: rest) rest

/-- `lcp_dct` of `src/lps.c`: returns -1 (and leaves the container alone)
when fewer than `DCT_ITERATION_COUNT + 1 = 2` cores are present. -/
def lcp_dct (lp : Lps) : Lps × Int :=
  if lp.cores.length < 2 then (lp, -1) else ({ lp with cores := dctList lp.cores }, 0)

/-- `lps_deepen1` of `src/lps.c`: one deepening step, returning the new
container and the C return value. -/
def lps_deepen1 (lp : Lps) : Lps × Int :=
  let d := lcp_dct lp
  if d.2 < 0 then ({ level := lp.level + 1, cores := [] }, 0)
  else ({ level := lp.level + 1, cores := parse3 (d.1.cores.drop 1) }, 1)

/-- The `while (lps_ptr->level < lcp_level && lps_deepen1(lps_ptr))` loop of
`lps_deepen`; the fuel equals the number of levels still to climb, which
matches the C loop because `lps_deepen1` always increments `level` by 1. -/
def deepenGo : Lps → Nat → Lps
  | lp, 0 => lp
  | lp, fuel + 1 =>
    let p := lps_deepen1 lp
    if p.2 = 1 then deepenGo p.1 fuel else p.1

/-- `lps_deepen` of `src/lps.c`: returns the new container and the C return
value (0 for a no-op request, 1 otherwise). -/
def lps_deepen (lp : Lps) (lcp_level : Int) : Lps × Int :=
  if lcp_level ≤ lp.level then (lp, 0)
  else (deepenGo lp (lcp_level - lp.level).toNat, 1)

/-- The element loop of `lps_eq`: returns 0 as soon as some pair of
corresponding cores has `core_neq` true, 1 otherwise. -/
def lpsEqGo : List Core → List Core → Int
  | a :: as', b :: bs' => if core_neqb a b then 0 else lpsEqGo as' bs'
  | _, _ => 1

/-- `lps_eq` of `src/lps.c` over packed cores: size compare, then the
pairwise `core_neq` loop. -/
def lps_eq (lhs rhs : Lps) : Int :=
  if lhs.cores.length ≠ rhs.cores.length then 0 else lpsEqGo lhs.cores rhs.cores

/-- Fuel recursion behind `runLen2`. -/
def runLen2Aux (s : List Nat) : Nat → Nat → Nat
  | 0, _ => 0
  | fuel + 1, t =>
    if t < s.length ∧ rc_at s (t - 1) = rc_at s t then runLen2Aux s fuel (t + 1) + 1 else 0

/-- Equal-run loop of the RINT branch of the forward RC scan `parse2` of
`lcptools_ho.h`. -/
def runLen2 (s : List Nat) (t : Nat) : Nat := runLen2Aux s (s.length - t) t

/-- SSEQ back-fill of the forward RC scan. -/
def sseq2 (s : List Nat) (off i : Nat) (st : P1St) : List Core :=
  if st.it2 < i ∧ st.lastInvalid < (st.it2 : Int) - 1 then
    [init_core2 s (st.it2 - 1) (i - st.it2 + 2) (st.it2 - 1 + off) (i + 1 + off)]
  else []

/-- One iteration of the forward RC scan `parse2` of `lcptools_ho.h`:
identical control flow to `parse1` with the reverse-complement table and
`init_core2`. -/
def parse2Step (s : List Nat) (off i : Nat) (st : P1St) : List Core × P1St :=
  let n := s.length
  if rc_at s i = -1 then ([], { st with lastInvalid := (i : Int) })
  else if rc_at s i = rc_at s (i + 1) then ([], st)
  else if rc_at s (i + 1) = rc_at s (i + 2) ∧ i + 2 + runLen2 s (i + 2) ≠ n then
    let mc := 1 + runLen2 s (i + 2)
    let it2 := i + 2 + mc
    (sseq2 s off i st ++ [init_core2 s i (2 + mc) (i + off) (it2 + off)],
      { st with it2 := it2 })
  else if rc_at s i > rc_at s (i + 1) ∧ rc_at s (i + 1) < rc_at s (i + 2) then
    (sseq2 s off i st ++ [init_core2 s i 3 (i + off) (i + 3 + off)],
      { st with it2 := i + 3 })
  else if i = 0 then ([], st)
  else if i + 3 < n ∧ rc_at s i < rc_at s (i + 1) ∧ rc_at s (i + 1) > rc_at s (i + 2) ∧
      rc_at s (i - 1) ≤ rc_at s i ∧ rc_at s (i + 2) ≥ rc_at s (i + 3) then
    (sseq2 s off i st ++ [init_core2 s i 3 (i + off) (i + 3 + off)],
      { st with it2 := i + 3 })
  else ([], st)

/-- Fuel recursion behind the scan loop of `parse2`. -/
def parse2Go (s : List Nat) (off : Nat) : Nat → Nat → P1St → List Core
  | 0, _, _ => []
  | fuel + 1, i, st =>
    if i + 2 < s.length then
      let p := parse2Step s off i st
      p.1 ++ parse2Go s off fuel (i + 1) p.2
    else []

/-- The forward RC parser `parse2` of `lcptools_ho.h`. -/
def parse2 (s : List Nat) (off : Nat) : List Core :=
  parse2Go s off s.length 0 ⟨s.length, -1⟩

/-- `init_lps2` of `lcptools_ho.h`: reverse the input (helper `reverse`)
and run the forward RC scan over the reversed string. -/
def init_lps2 (s : List Nat) : Lps := ⟨1, parse2 s.reverse 0⟩

/-- Byte read through a possibly negative C pointer index (the dedicated
right-to-left parser moves pointers below `begin` transiently; guarded
reads never dereference there, the model totalises with byte 0). -/
def getbI (s : List Nat) (t : Int) : Nat :=
  if 0 ≤ t then getb s t.toNat else 0

/-- Reverse-complement lookup at a (possibly out-of-range) `Int` index. -/
def rcI (s : List Nat) (t : Int) : Int := rc_alphabet (getbI s t)

/-- Equal-run loop of the RINT branch of the right-to-left RC parser
`parse2` of `src/lps.c`: iterations of
`while (begin <= temp && rc_alphabet[*(temp+1)] == rc_alphabet[*temp])`
started at `temp = t` (moving left). -/
def runLen2rAux (s : List Nat) : Nat → Int → Nat
  | 0, _ => 0
  | fuel + 1, t =>
    if 0 ≤ t ∧ rcI s (t + 1) = rcI s t then runLen2rAux s fuel (t - 1) + 1 else 0

/-- Top-level entry of the leftward equal-run loop; the fuel `(t+1).toNat`
bounds the iterations (the loop stops at the latest below index 0). -/
def runLen2r (s : List Nat) (t : Int) : Nat := runLen2rAux s (t + 1).toNat t

/-- One iteration of the right-to-left RC parser `parse2` of `src/lps.c`
at position `p` (the pointer `it1`); `it2` is the `Int` index of the
pointer `it2` (sentinel `begin - 1 = -1`).  Spans are recorded as
`end - it - 1 + offset` in the reversed coordinate frame, exactly as in
the C code; note the cores are built by `init_core2` reading *forward*
from the match position. -/
def parse2rStep (s : List Nat) (off p : Nat) (it2 : Int) : List Core × Int :=
  let n := s.length
  let sseq : List Core :=
    if (p : Int) < it2 then
      [init_core2 s (it2 + 1).toNat (it2 - p + 2).toNat
        ((n : Int) - it2 - 1 + off).toNat ((n : Int) - p - 1 + off).toNat]
    else []
  if rc_at s p = rc_at s (p - 1) then ([], it2)
  else if rc_at s (p - 1) = rc_at s (p - 2) ∧
      0 ≤ (p : Int) - 2 - runLen2r s ((p : Int) - 2) then
    let mc := 1 + runLen2r s ((p : Int) - 2)
    let it2n : Int := (p : Int) - 2 - mc
    (sseq ++ [init_core2 s p (2 + mc)
      ((n : Int) - p - 1 + off).toNat ((n : Int) - it2n - 1 + off).toNat], it2n)
  else if rc_at s p > rc_at s (p - 1) ∧ rc_at s (p - 1) < rc_at s (p - 2) then
    (sseq ++ [init_core2 s p 3
      ((n : Int) - p - 1 + off).toNat ((n : Int) - ((p : Int) - 3) - 1 + off).toNat],
      (p : Int) - 3)
  else if p = 0 then ([], it2)
  else if 0 ≤ (p : Int) - 3 ∧ rc_at s p < rc_at s (p - 1) ∧ rc_at s (p - 1) > rc_at s (p - 2) ∧
      rc_at s (p + 1) ≤ rc_at s p ∧ rc_at s (p - 2) ≥ rc_at s (p - 3) then
    (sseq ++ [init_core2 s p 3
      ((n : Int) - p - 1 + off).toNat ((n : Int) - ((p : Int) - 3) - 1 + off).toNat],
      (p : Int) - 3)
  else ([], it2)

/-- Scan loop of the right-to-left RC parser: `for (; begin <= it1 - 2; it1--)`,
descending structurally on the position. -/
def parse2rGo (s : List Nat) (off : Nat) : Nat → Int → List Core
  | 0, _ => []
  | 1, _ => []
  | p + 2, it2 =>
    let q := parse2rStep s off (p + 2) it2
    q.1 ++ parse2rGo s off (p + 1) q.2

/-- The dedicated right-to-left RC parser `parse2` of `src/lps.c`. -/
def parse2r (s : List Nat) (off : Nat) : List Core :=
  parse2rGo s off (s.length - 1) (-1)

/-- `init_lps2` of `src/lps.c`: runs the dedicated right-to-left RC parser
directly on the input. -/
def init_lps2r (s : List Nat) : Lps := ⟨1, parse2r s 0⟩

/-- Little-endian byte encoding of `n` on `k` bytes (x86 `fwrite` of a
`k`-byte machine integer); values are truncated modulo `256^k`. -/
def toLE : Nat → Nat → List Nat
  | 0, _ => []
  | k + 1, n => n % 256 :: toLE k (n / 256)

/-- Little-endian byte decoding. -/
def fromLE : List Nat → Nat
  | [] => 0
  | b :: bs => b + 256 * fromLE bs

/-- Serialised form of one `struct core` (40 bytes on x86-64):
`u32 bit_size`, 4 padding bytes, `u64 bit_rep`, `u32 label`, 4 padding
bytes, `u64 start`, `u64 end`.  `fwrite` dumps the in-memory struct,
padding included (taken as 0 in the model). -/
def encCore (c : Core) : List Nat :=
  toLE 4 c.bit_size ++ [0, 0, 0, 0] ++ toLE 8 c.bit_rep ++ toLE 4 c.label ++
    [0, 0, 0, 0] ++ toLE 8 c.start ++ toLE 8 c.stop

/-- `write_lps` of `src/lps.c`: `int32 level`, `int32 size`, then the
packed core records (nothing when `size = 0`).  `int` values are written
in two's complement. -/
def write_lps (lp : Lps) : List Nat :=
  toLE 4 (lp.level % (2 ^ 32 : Int)).toNat ++
    toLE 4 ((lp.cores.length : Int) % (2 ^ 32 : Int)).toNat ++
    (lp.cores.map encCore).flatten

/-- Decoding of a little-endian `int32` (two's complement). -/
def decInt32 (bs : List Nat) : Int :=
  let n := fromLE (bs.take 4)
  if n < 2 ^ 31 then (n : Int) else (n : Int) - 2 ^ 32

/-- Decoding of one serialised core record. -/
def decCore (bs : List Nat) : Core :=
  { bit_size := fromLE (bs.take 4)
    bit_rep := fromLE ((bs.drop 8).take 8)
    label := fromLE ((bs.drop 16).take 4)
    start := fromLE ((bs.drop 24).take 8)
    stop := fromLE ((bs.drop 32).take 8) }

/-- Decoding of `k` consecutive serialised core records. -/
def decCores : Nat → List Nat → List Core
  | 0, _ => []
  | k + 1, bs => decCore bs :: decCores k (bs.drop 40)

/-- `init_lps3` of `src/lps.c`: reads `level` and `size`, then, when
`size` is nonzero, `size` packed core records.  A short read (or a
negative size, whose `malloc`/`fread` request fails) is a fatal error,
modelled as `none`. -/
def init_lps3 (bs : List Nat) : Option Lps :=
  if bs.length < 8 then none
  else
    let level := decInt32 bs
    let size := decInt32 (bs.drop 4)
    if size = 0 then some ⟨level, []⟩
    else if size < 0 then none
    else if (bs.drop 8).length < 40 * size.toNat then none
    else some ⟨level, decCores size.toNat (bs.drop 8)⟩

/-- Pointwise update of an alphabet table (a C array store). -/
def setT (t : Nat → Int) (i : Nat) (v : Int) : Nat → Int :=
  fun j => if j = i then v else t j

/-- Zero-initialised state of the C global arrays `alphabet` and
`rc_alphabet` before any initialiser runs. -/
def zeroTable : Nat → Int := fun _ => 0

/-- State of the global `alphabet` array after `LCP_INIT2`
(`src/encoding.c`): the loop sets all 128 entries to -1, then the eight
A/T/G/C assignments are applied. -/
def LCP_INIT2_alphabet : Nat → Int :=
  setT (setT (setT (setT (setT (setT (setT (setT
    (fun c => if c < 128 then -1 else zeroTable c)
    65 0) 97 0) 84 3) 116 3) 71 2) 103 2) 67 1) 99 1

/-- State of the global `rc_alphabet` array after `LCP_INIT2`: only the
eight A/T/G/C assignments run — the initialisation loop touches only
`alphabet` and `characters`, so all other entries keep their
zero-initialised value. -/
def LCP_INIT2_rc_alphabet : Nat → Int :=
  setT (setT (setT (setT (setT (setT (setT (setT zeroTable
    65 3) 97 3) 84 0) 116 0) 71 1) 103 1) 67 2) 99 2

/-- Span relation between a core of the forward-on-reversed RC parse and
the corresponding core of the dedicated right-to-left RC parse: pattern
cores carry identical spans, connector (SSEQ) cores of the right-to-left
parser carry a span shrunk by one on each side. -/
def spanRel (a b : Core) : Prop :=
  (a.start = b.start ∧ a.stop = b.stop) ∨ (a.start + 1 = b.start ∧ b.stop + 1 = a.stop)

/-- Condition under which the right-to-left RC parser of `src/lps.c`
reaches its LMAX test at the rightmost scanned position `it1 = end - 1`
and fires, reading the byte one past the end of the buffer (the NUL);
the forward scan of the reversed string suppresses the mirrored test at
its first position (`begin == it1`). -/
def rlBoundaryLMAX (s : List Nat) : Prop :=
  4 ≤ s.length ∧
  rc_at s (s.length - 1) < rc_at s (s.length - 2) ∧
  rc_at s (s.length - 2) > rc_at s (s.length - 3) ∧
  rc_at s s.length ≤ rc_at s (s.length - 1) ∧
  rc_at s (s.length - 3) ≥ rc_at s (s.length - 4)

instance (s : List Nat) : Decidable (rlBoundaryLMAX s) := by
  unfold rlBoundaryLMAX
  infer_instance

/-! ### Helper lemmas -/

theorem init_core1_start (s : List Nat) (i d st en : Nat) :
    (init_core1 s i d st en).start = st := rfl

theorem init_core1_stop (s : List Nat) (i d st en : Nat) :
    (init_core1 s i d st en).stop = en := rfl

theorem init_core2_start (s : List Nat) (i d st en : Nat) :
    (init_core2 s i d st en).start = st := rfl

theorem init_core2_stop (s : List Nat) (i d st en : Nat) :
    (init_core2 s i d st en).stop = en := rfl

theorem alphabet_mem (c : Nat) : alphabet c = -1 ∨ (0 ≤ alphabet c ∧ alphabet c ≤ 3) := by
  unfold alphabet
  split_ifs <;> norm_num

theorem rc_alphabet_range (c : Nat) : 0 ≤ rc_alphabet c ∧ rc_alphabet c ≤ 3 := by
  unfold rc_alphabet
  split_ifs <;> norm_num

theorem rc_alphabet_ne_neg_one (c : Nat) : rc_alphabet c ≠ -1 := by
  have h := rc_alphabet_range c
  omega

theorem mul_pow_lor {k b : Nat} (m : Nat) (hb : b < 2 ^ k) :
    (m * 2 ^ k) ||| b = m * 2 ^ k + b := by
  rw [Nat.mul_comm m (2 ^ k)]
  exact (Nat.mul_add_lt_is_or hb m).symm

theorem or32_of_nonneg (l : Nat) (e : Int) (he0 : 0 ≤ e) (helt : e < 2 ^ 32) :
    or32 l e = l ||| e.toNat := by
  unfold or32
  rw [Int.emod_eq_of_lt he0 (by exact_mod_cast helt)]

theorem or32_natCast (l x : Nat) (h : x < 2 ^ 32) : or32 l ((x : Nat) : Int) = l ||| x := by
  rw [or32_of_nonneg _ _ (by positivity) (by exact_mod_cast h), Int.toNat_natCast]

/-- Closed form of the level-1 label computation of `init_core1` /
`init_core2` for in-range symbol codes. -/
theorem or32_label (d2 : Nat) (a b c : Int) (hd : d2 < 2 ^ 26)
    (ha0 : 0 ≤ a) (ha : a ≤ 3) (hb0 : 0 ≤ b) (hb : b ≤ 3) (hc0 : 0 ≤ c) (hc : c ≤ 3) :
    or32 (or32 (or32 (or32 0 ((d2 <<< 6 : Nat) : Int)) (a * 16)) (b * 4)) c
      = d2 * 64 + a.toNat * 16 + b.toNat * 4 + c.toNat := by
  obtain ⟨na, rfl⟩ : ∃ na : Nat, a = (na : Int) := ⟨a.toNat, (Int.toNat_of_nonneg ha0).symm⟩
  obtain ⟨nb, rfl⟩ : ∃ nb : Nat, b = (nb : Int) := ⟨b.toNat, (Int.toNat_of_nonneg hb0).symm⟩
  obtain ⟨nc, rfl⟩ : ∃ nc : Nat, c = (nc : Int) := ⟨c.toNat, (Int.toNat_of_nonneg hc0).symm⟩
  have hna : na ≤ 3 := by exact_mod_cast ha
  have hnb : nb ≤ 3 := by exact_mod_cast hb
  have hnc : nc ≤ 3 := by exact_mod_cast hc
  have hshl : (d2 <<< 6 : Nat) = d2 * 64 := by
    rw [Nat.shiftLeft_eq]
  have c1 : ((na : Int) * 16) = ((na * 16 : Nat) : Int) := by push_cast; ring
  have c2 : ((nb : Int) * 4) = ((nb * 4 : Nat) : Int) := by push_cast; ring
  have c3 : ((nc : Int)) = ((nc : Nat) : Int) := rfl
  rw [c1, c2, c3, or32_natCast 0 _ (by omega), or32_natCast _ _ (by omega),
    or32_natCast _ _ (by omega), or32_natCast _ _ (by omega), hshl, Nat.zero_or]
  have s1 : d2 * 64 ||| na * 16 = d2 * 64 + na * 16 := by
    have := mul_pow_lor (k := 6) d2 (b := na * 16) (by omega)
    simpa using this
  rw [s1]
  have s2 : d2 * 64 + na * 16 ||| nb * 4 = d2 * 64 + na * 16 + nb * 4 := by
    have := mul_pow_lor (k := 4) (d2 * 4 + na) (b := nb * 4) (by omega)
    have hre : (d2 * 4 + na) * 2 ^ 4 = d2 * 64 + na * 16 := by ring
    rw [hre] at this
    exact this
  rw [s2]
  have s3 : d2 * 64 + na * 16 + nb * 4 ||| nc = d2 * 64 + na * 16 + nb * 4 + nc := by
    have := mul_pow_lor (k := 2) (d2 * 16 + na * 4 + nb) (b := nc) (by omega)
    have hre : (d2 * 16 + na * 4 + nb) * 2 ^ 2 = d2 * 64 + na * 16 + nb * 4 := by ring
    rw [hre] at this
    exact this
  rw [s3]
  simp [Int.toNat_natCast]

theorem top_or (lab : Nat) (h : lab < 2 ^ 63) :
    0x8000000000000000 ||| lab = 2 ^ 63 + lab := by
  have := mul_pow_lor (k := 63) 1 (b := lab) h
  simpa using this

/-- Arithmetic layout of a packed level-1 `bit_rep` whose label splits
into a run-length part and a sub-64 symbol part. -/
theorem packed12 (lab d2 v : Nat) (hlab : lab = d2 * 64 + v) (hv : v < 64)
    (hd : d2 < 2 ^ 26) :
    (0x8000000000000000 ||| lab) / 2 ^ 63 = 1 ∧
    (0x8000000000000000 ||| lab) % 2 ^ 63 = lab ∧
    (0x8000000000000000 ||| lab) / 2 ^ 6 % 2 ^ 57 = d2 := by
  have hlt : lab < 2 ^ 63 := by subst hlab; omega
  rw [top_or lab hlt]
  subst hlab
  omega

/-! ### Claim C5 -/

/-- C5 counterexample: the first core of `parse1` on "AGGGGGGT" is a RINT
core of 8 symbols whose label is 395 ≥ 256, so the low 8 bits of
`bit_rep` (139) do not equal the label; and the single core of `parse1`
on "TACC" is produced by the LMIN branch, yet bits [6..62] of its
`bit_rep` hold 1, not 0. -/
theorem C5_counterexample :
    ((init_lps [65, 71, 71, 71, 71, 71, 71, 84]).cores.length = 1 ∧
      ((init_lps [65, 71, 71, 71, 71, 71, 71, 84]).cores.getD 0 defCore).label = 395 ∧
      ((init_lps [65, 71, 71, 71, 71, 71, 71, 84]).cores.getD 0 defCore).bit_rep % 2 ^ 8 ≠
        ((init_lps [65, 71, 71, 71, 71, 71, 71, 84]).cores.getD 0 defCore).label) ∧
    ((init_lps [84, 65, 67, 67]).cores.length = 1 ∧
      ((init_lps [84, 65, 67, 67]).cores.getD 0 defCore).bit_rep / 2 ^ 6 % 2 ^ 57 = 1) := by
  decide

/-- C5 (amended): for every level-1 core produced by the raw-symbol
constructors on in-alphabet symbols, the top bit of `bit_rep` is 1, bits
[0..62] of `bit_rep` equal the label (hence the low 8 bits equal the
label only when the label fits in 8 bits, i.e. `distance ≤ 5`), and bits
[6..62] of `bit_rep` hold `distance - 2`: the middle-run count `m` for a
RINT core (`distance = 2 + m`), but 1 — not 0 — for LMIN and LMAX cores
(`distance = 3`). -/
theorem C5_level1_bit_layout (s : List Nat) (i d st en : Nat)
    (hdlt : d - 2 < 2 ^ 26)
    (h1 : a_at s i ≠ -1) (h2 : a_at s (i + d - 2) ≠ -1) (h3 : a_at s (i + d - 1) ≠ -1) :
    ((init_core1 s i d st en).bit_rep / 2 ^ 63 = 1 ∧
      (init_core1 s i d st en).bit_rep % 2 ^ 63 = (init_core1 s i d st en).label ∧
      (init_core1 s i d st en).bit_rep / 2 ^ 6 % 2 ^ 57 = d - 2) ∧
    ((init_core2 s i d st en).bit_rep / 2 ^ 63 = 1 ∧
      (init_core2 s i d st en).bit_rep % 2 ^ 63 = (init_core2 s i d st en).label ∧
      (init_core2 s i d st en).bit_rep / 2 ^ 6 % 2 ^ 57 = d - 2) := by
  have b1 : 0 ≤ a_at s i ∧ a_at s i ≤ 3 := (alphabet_mem (getb s i)).resolve_left h1
  have b2 : 0 ≤ a_at s (i + d - 2) ∧ a_at s (i + d - 2) ≤ 3 :=
    (alphabet_mem (getb s (i + d - 2))).resolve_left h2
  have b3 : 0 ≤ a_at s (i + d - 1) ∧ a_at s (i + d - 1) ≤ 3 :=
    (alphabet_mem (getb s (i + d - 1))).resolve_left h3
  have r1 : 0 ≤ rc_at s i ∧ rc_at s i ≤ 3 := rc_alphabet_range (getb s i)
  have r2 : 0 ≤ rc_at s (i + d - 2) ∧ rc_at s (i + d - 2) ≤ 3 :=
    rc_alphabet_range (getb s (i + d - 2))
  have r3 : 0 ≤ rc_at s (i + d - 1) ∧ rc_at s (i + d - 1) ≤ 3 :=
    rc_alphabet_range (getb s (i + d - 1))
  constructor
  · have hlab : (init_core1 s i d st en).label =
        (d - 2) * 64 + ((a_at s i).toNat * 16 + (a_at s (i + d - 2)).toNat * 4 +
          (a_at s (i + d - 1)).toNat) := by
      have := or32_label (d - 2) (a_at s i) (a_at s (i + d - 2)) (a_at s (i + d - 1))
        hdlt b1.1 b1.2 b2.1 b2.2 b3.1 b3.2
      rw [show (init_core1 s i d st en).label =
        or32 (or32 (or32 (or32 0 (((d - 2) <<< 6 : Nat) : Int)) (a_at s i * 16))
          (a_at s (i + d - 2) * 4)) (a_at s (i + d - 1)) from rfl, this]
      ring
    have hrep : (init_core1 s i d st en).bit_rep =
        0x8000000000000000 ||| (init_core1 s i d st en).label := rfl
    rw [hrep]
    exact packed12 _ _ _ hlab (by omega) hdlt
  · have hlab : (init_core2 s i d st en).label =
        (d - 2) * 64 + ((rc_at s i).toNat * 16 + (rc_at s (i + d - 2)).toNat * 4 +
          (rc_at s (i + d - 1)).toNat) := by
      have := or32_label (d - 2) (rc_at s i) (rc_at s (i + d - 2)) (rc_at s (i + d - 1))
        hdlt r1.1 r1.2 r2.1 r2.2 r3.1 r3.2
      rw [show (init_core2 s i d st en).label =
        or32 (or32 (or32 (or32 0 (((d - 2) <<< 6 : Nat) : Int)) (rc_at s i * 16))
          (rc_at s (i + d - 2) * 4)) (rc_at s (i + d - 1)) from rfl, this]
      ring
    have hrep : (init_core2 s i d st en).bit_rep =
        0x8000000000000000 ||| (init_core2 s i d st en).label := rfl
    rw [hrep]
    exact packed12 _ _ _ hlab (by omega) hdlt

/-- C5 witness: the amended layout at the LMIN window "TAC". -/
theorem C5_level1_bit_layout_witness :
    ((3 : Nat) - 2 < 2 ^ 26 ∧ a_at [84, 65, 67] 0 ≠ -1 ∧
      a_at [84, 65, 67] (0 + 3 - 2) ≠ -1 ∧ a_at [84, 65, 67] (0 + 3 - 1) ≠ -1) ∧
    (((init_core1 [84, 65, 67] 0 3 0 3).bit_rep / 2 ^ 63 = 1 ∧
      (init_core1 [84, 65, 67] 0 3 0 3).bit_rep % 2 ^ 63 =
        (init_core1 [84, 65, 67] 0 3 0 3).label ∧
      (init_core1 [84, 65, 67] 0 3 0 3).bit_rep / 2 ^ 6 % 2 ^ 57 = 3 - 2) ∧
    ((init_core2 [84, 65, 67] 0 3 0 3).bit_rep / 2 ^ 63 = 1 ∧
      (init_core2 [84, 65, 67] 0 3 0 3).bit_rep % 2 ^ 63 =
        (init_core2 [84, 65, 67] 0 3 0 3).label ∧
      (init_core2 [84, 65, 67] 0 3 0 3).bit_rep / 2 ^ 6 % 2 ^ 57 = 3 - 2)) :=
  ⟨⟨by decide, by decide, by decide, by decide⟩,
    C5_level1_bit_layout [84, 65, 67] 0 3 0 3 (by decide) (by decide) (by decide) (by decide)⟩

/-! ### Claim C4 -/

theorem blenAux_eq_log2 : ∀ fuel x, x < 2 ^ fuel →
    blenAux fuel x = if x = 0 then 0 else Nat.log2 x + 1 := by
  intro fuel
  induction fuel with
  | zero =>
    intro x hx
    have hx0 : x = 0 := by omega
    subst hx0
    simp [blenAux]
  | succ f ih =>
    intro x hx
    by_cases h0 : x = 0
    · subst h0
      simp [blenAux]
    · simp only [blenAux, if_neg h0]
      have h2 : (2 : Nat) ^ (f + 1) = 2 ^ f * 2 := pow_succ 2 f
      rw [h2] at hx
      have hdiv : x / 2 < 2 ^ f := (Nat.div_lt_iff_lt_mul (by norm_num)).mpr hx
      rw [ih _ hdiv]
      by_cases h1 : x / 2 = 0
      · have hx1 : x = 1 := by omega
        subst hx1
        rw [if_pos h1]
        rw [Nat.log2]
        norm_num
      · rw [if_neg h1]
        conv_rhs => rw [Nat.log2]
        rw [if_pos (by omega : x ≥ 2)]

theorem blen_eq (x : Nat) (h : x < 2 ^ 64) :
    blen x = if x = 0 then 0 else Nat.log2 x + 1 := blenAux_eq_log2 64 x h

theorem blen_le {x k : Nat} (hx : x < 2 ^ k) (hk : k ≤ 64) : blen x ≤ k := by
  have hx64 : x < 2 ^ 64 := lt_of_lt_of_le hx (Nat.pow_le_pow_right (by norm_num) hk)
  rw [blen_eq x hx64]
  by_cases h0 : x = 0
  · simp [h0]
  · rw [if_neg h0]
    have := (Nat.log2_lt h0).mpr hx
    omega

theorem blen_lb {x k : Nat} (hx : 2 ^ k ≤ x) (hx64 : x < 2 ^ 64) : k + 1 ≤ blen x := by
  have h1 : 1 ≤ (2 : Nat) ^ k := Nat.one_le_two_pow
  have h0 : x ≠ 0 := by omega
  rw [blen_eq x hx64, if_neg h0]
  have := (Nat.le_log2 h0).mpr hx
  omega

theorem blen_pair (v : Nat) (h4 : 4 ≤ v) (hlt : v < 2 ^ 61) :
    2 ≤ blen v ∧ blen v ≤ 63 :=
  ⟨by have := blen_lb (x := v) (k := 2) (by omega) (by omega); omega,
    le_trans (blen_le hlt (by norm_num)) (by norm_num)⟩

theorem blen_pair_mod (v : Nat) (h4 : 4 ≤ v) (hlt : v < 2 ^ 61) :
    2 ≤ blen (v % 2 ^ 64) ∧ blen (v % 2 ^ 64) ≤ 63 := by
  rw [Nat.mod_eq_of_lt (by omega)]
  exact blen_pair v h4 hlt

theorem bs_two_pair : (2 : Nat) ≤ 2 ∧ (2 : Nat) ≤ 63 := by norm_num

theorem upper_bs_bound (rep : Nat) (h : rep < 2 ^ 34) :
    2 ≤ max (if rep = 0 then 2 else blen rep) 2 ∧
      max (if rep = 0 then 2 else blen rep) 2 ≤ 63 := by
  refine ⟨le_max_right _ _, ?_⟩
  split_ifs with h0
  · norm_num
  · have := blen_le (x := rep) (k := 34) h (by norm_num)
    omega

theorem foldl_add_init (cs : List Core) :
    ∀ n : Nat, cs.foldl (fun a c => a + c.bit_size) n =
      n + cs.foldl (fun a c => a + c.bit_size) 0 := by
  induction cs with
  | nil => intro n; simp
  | cons c t ih =>
    intro n
    simp only [List.foldl_cons]
    rw [ih (n + c.bit_size), ih (0 + c.bit_size)]
    omega

theorem foldl_bit_size_lb (cs : List Core) (h : ∀ c ∈ cs, 2 ≤ c.bit_size) :
    2 * cs.length ≤ cs.foldl (fun a c => a + c.bit_size) 0 := by
  induction cs with
  | nil => simp
  | cons c t ih =>
    simp only [List.foldl_cons, List.length_cons]
    rw [foldl_add_init t (0 + c.bit_size)]
    have hc : 2 ≤ c.bit_size := h c (List.mem_cons_self c t)
    have ht := ih fun x hx => h x (List.mem_cons_of_mem c hx)
    omega

/-- C4 counterexample: `parse1` on the string A followed by 31 G and a T
emits a single RINT core spanning 33 symbols whose `bit_size` is 66,
violating the claimed upper bound of 63. -/
theorem C4_counterexample :
    (init_lps [65, 71, 71, 71, 71, 71, 71, 71, 71, 71, 71, 71, 71, 71, 71, 71, 71,
        71, 71, 71, 71, 71, 71, 71, 71, 71, 71, 71, 71, 71, 71, 71, 84]).cores.length = 1 ∧
    ((init_lps [65, 71, 71, 71, 71, 71, 71, 71, 71, 71, 71, 71, 71, 71, 71, 71, 71,
        71, 71, 71, 71, 71, 71, 71, 71, 71, 71, 71, 71, 71, 71, 71, 84]).cores.getD 0
        defCore).bit_size = 66 ∧
    ¬ ((init_lps [65, 71, 71, 71, 71, 71, 71, 71, 71, 71, 71, 71, 71, 71, 71, 71, 71,
        71, 71, 71, 71, 71, 71, 71, 71, 71, 71, 71, 71, 71, 71, 71, 84]).cores.getD 0
        defCore).bit_size ≤ 63 := by
  decide

/-- C4 (amended): every core carries `bit_size ≥ 2`; the upper bound 63
holds for cores built by the child-run constructor (`init_core3` clamps
to 63) and for cores rewritten by DCT compression, but a level-1 core
has `bit_size` exactly 2·(length in symbols), which exceeds 63 as soon
as the core spans 32 or more symbols. -/
theorem C4_bit_size_bounds :
    (∀ (s : List Nat) (i d st en : Nat), 2 ≤ d → 2 * d < 2 ^ 32 →
      (init_core1 s i d st en).bit_size = 2 * d ∧ 2 ≤ (init_core1 s i d st en).bit_size) ∧
    (∀ children : List Core, 3 ≤ children.length →
      (∀ c ∈ children, 2 ≤ c.bit_size) →
      children.foldl (fun a c => a + c.bit_size) 0 < 2 ^ 32 →
      2 ≤ (init_core3 children).bit_size ∧ (init_core3 children).bit_size ≤ 63) ∧
    (∀ l r : Core, 2 ≤ r.bit_size → l.bit_size < 2 ^ 32 → r.bit_size < 2 ^ 32 →
      2 ≤ (core_compress l r).bit_size ∧ (core_compress l r).bit_size ≤ 63) := by
  refine ⟨?_, ?_, ?_⟩
  · intro s i d st en hd2 hdlt
    have : (init_core1 s i d st en).bit_size = (2 * d) % 2 ^ 32 := rfl
    rw [this, Nat.mod_eq_of_lt hdlt]
    omega
  · intro children hlen hmem hsum
    have hbs : (init_core3 children).bit_size =
        min ((children.foldl (fun a c => a + c.bit_size) 0) % 2 ^ 32) 63 := rfl
    have hlb := foldl_bit_size_lb children hmem
    rw [hbs, Nat.mod_eq_of_lt hsum]
    omega
  · intro l r hrs2 hls32 hrs32
    have hlmc : (l.bit_rep &&& 0x7FFFFFFFFFFFFFFF) >>> 6 < 2 ^ 57 := by
      have hm : l.bit_rep &&& 0x7FFFFFFFFFFFFFFF ≤ 0x7FFFFFFFFFFFFFFF := Nat.and_le_right
      rw [Nat.shiftRight_eq_div_pow]
      omega
    have hrmc : (r.bit_rep &&& 0x7FFFFFFFFFFFFFFF) >>> 6 < 2 ^ 57 := by
      have hm : r.bit_rep &&& 0x7FFFFFFFFFFFFFFF ≤ 0x7FFFFFFFFFFFFFFF := Nat.and_le_right
      rw [Nat.shiftRight_eq_div_pow]
      omega
    have e1 : ((r.bit_rep >>> 2) &&& 3) &&& 1 ≤ 1 := Nat.and_le_right
    have e2 : (((r.bit_rep >>> 2) &&& 3) >>> 1) &&& 1 ≤ 1 := Nat.and_le_right
    have e3 : ((r.bit_rep >>> 4) &&& 3) &&& 1 ≤ 1 := Nat.and_le_right
    have e4 : (((r.bit_rep >>> 4) &&& 3) >>> 1) &&& 1 ≤ 1 := Nat.and_le_right
    have hminr : ∀ X : Nat, min X (min l.bit_size r.bit_size) < 2 ^ 32 :=
      fun X => lt_of_le_of_lt (le_trans (min_le_right _ _) (min_le_right _ _)) hrs32
    unfold core_compress
    by_cases htop : l.bit_rep.testBit 63
    · simp only [htop, if_true]
      split_ifs
      · exact bs_two_pair
      · exact bs_two_pair
      · exact blen_pair _ (by omega) (by omega)
      · exact blen_pair _ (by omega) (by omega)
      · exact blen_pair_mod _ (by omega) (by omega)
      · exact blen_pair_mod _ (by omega) (by omega)
      · exact blen_pair_mod _ (by omega) (by omega)
      · exact blen_pair_mod _ (by omega) (by omega)
      · exact blen_pair_mod _ (by omega) (by omega)
      · exact blen_pair_mod _ (by omega) (by omega)
      · exact blen_pair_mod _ (by omega) (by omega)
    · simp only [htop, if_false]
      refine upper_bs_bound _ ?_
      have hY : (r.bit_rep >>> min (if l.bit_rep ≠ r.bit_rep
          then ctz64 (l.bit_rep ^^^ r.bit_rep) else r.bit_size)
          (min l.bit_size r.bit_size)) &&& 1 ≤ 1 :=
        Nat.and_le_right
      have hM := hminr (if l.bit_rep ≠ r.bit_rep
        then ctz64 (l.bit_rep ^^^ r.bit_rep) else r.bit_size)
      omega

/-- C4 witness: the amended bounds at concrete inputs (a 3-symbol window
for `init_core1`, a run of three level-2-style children for
`init_core3`, and a level-1 left core for `core_compress`). -/
theorem C4_bit_size_bounds_witness :
    ((2 ≤ 3 ∧ 2 * 3 < 2 ^ 32) ∧
      (init_core1 [84, 65, 67] 0 3 0 3).bit_size = 2 * 3 ∧
        2 ≤ (init_core1 [84, 65, 67] 0 3 0 3).bit_size) ∧
    ((3 ≤ ([⟨6, 1, 0, 0, 3⟩, ⟨6, 2, 0, 2, 5⟩, ⟨6, 3, 0, 4, 7⟩] : List Core).length ∧
        (∀ c ∈ ([⟨6, 1, 0, 0, 3⟩, ⟨6, 2, 0, 2, 5⟩, ⟨6, 3, 0, 4, 7⟩] : List Core),
          2 ≤ c.bit_size) ∧
        ([⟨6, 1, 0, 0, 3⟩, ⟨6, 2, 0, 2, 5⟩, ⟨6, 3, 0, 4, 7⟩] : List Core).foldl
          (fun a c => a + c.bit_size) 0 < 2 ^ 32) ∧
      2 ≤ (init_core3 [⟨6, 1, 0, 0, 3⟩, ⟨6, 2, 0, 2, 5⟩, ⟨6, 3, 0, 4, 7⟩]).bit_size ∧
        (init_core3 [⟨6, 1, 0, 0, 3⟩, ⟨6, 2, 0, 2, 5⟩, ⟨6, 3, 0, 4, 7⟩]).bit_size ≤ 63) ∧
    ((2 ≤ (Core.mk 8 0x8000000000000061 97 0 4).bit_size ∧
        (Core.mk 6 0x8000000000000041 65 0 3).bit_size < 2 ^ 32 ∧
        (Core.mk 8 0x8000000000000061 97 0 4).bit_size < 2 ^ 32) ∧
      2 ≤ (core_compress ⟨6, 0x8000000000000041, 65, 0, 3⟩
          ⟨8, 0x8000000000000061, 97, 0, 4⟩).bit_size ∧
        (core_compress ⟨6, 0x8000000000000041, 65, 0, 3⟩
          ⟨8, 0x8000000000000061, 97, 0, 4⟩).bit_size ≤ 63) :=
  ⟨⟨⟨by decide, by decide⟩,
      C4_bit_size_bounds.1 [84, 65, 67] 0 3 0 3 (by decide) (by decide)⟩,
    ⟨⟨by decide, by decide, by decide⟩,
      C4_bit_size_bounds.2.1 [⟨6, 1, 0, 0, 3⟩, ⟨6, 2, 0, 2, 5⟩, ⟨6, 3, 0, 4, 7⟩]
        (by decide) (by decide) (by decide)⟩,
    ⟨⟨by decide, by decide, by decide⟩,
      C4_bit_size_bounds.2.2 ⟨6, 0x8000000000000041, 65, 0, 3⟩
        ⟨8, 0x8000000000000061, 97, 0, 4⟩ (by decide) (by decide) (by decide)⟩⟩

/-! ### Claim C6 -/

theorem clog2_succ : ∀ x : Nat, 1 ≤ x → Nat.clog 2 (x + 1) = Nat.log 2 x + 1 := by
  intro x
  induction x using Nat.strong_induction_on with
  | _ x ih =>
    intro hx
    rcases Nat.lt_or_ge x 2 with h2 | h2
    · have hx1 : x = 1 := by omega
      subst hx1
      rw [Nat.clog_of_two_le (by norm_num) (by norm_num)]
      norm_num [Nat.clog_one_right, Nat.log_one_right]
    · rw [Nat.clog_of_two_le (by norm_num) (by omega)]
      have hdiv : (x + 1 + 2 - 1) / 2 = x / 2 + 1 := by omega
      rw [hdiv, ih (x / 2) (by omega) (by omega),
        Nat.log_of_one_lt_of_le (by norm_num) h2]

/-- The C expression `rep == 0 ? 2 : 64 - clz(rep)` clamped below by 2
equals `max 2 ⌈log₂(rep + 1)⌉`. -/
theorem bs_formula (rep : Nat) (h64 : rep < 2 ^ 64) :
    max 2 (Nat.clog 2 (rep + 1)) = max (if rep = 0 then 2 else blen rep) 2 := by
  by_cases h0 : rep = 0
  · subst h0
    simp [Nat.clog_one_right]
  · rw [if_neg h0, blen_eq rep h64, if_neg h0, clog2_succ rep (by omega),
      ← Nat.log2_eq_log_two]
    exact Nat.max_comm _ _

/-- C6: for an upper-level left core (top bit of `left.bit_rep` clear),
`core_compress` sets `right.bit_rep` to `2·d + b` where `d` is the index
of the lowest-order differing bit of the two `bit_rep`s
(`right.bit_size` when they are equal) clamped to
`min(left.bit_size, right.bit_size)` and `b` is bit `d` of right's
original `bit_rep`; it sets `right.bit_size` to
`max 2 ⌈log₂(bit_rep + 1)⌉`, sets `right.start` to `left.start`, and
leaves `right.end` and `right.label` unchanged. -/
theorem C6_core_compress_upper (l r : Core) (hl : l.bit_rep < 2 ^ 63)
    (hr : r.bit_rep < 2 ^ 64) (hls : l.bit_size < 2 ^ 32) (hrs : r.bit_size < 2 ^ 32) :
    core_compress l r =
      ⟨max 2 (Nat.clog 2 (2 * min (if l.bit_rep = r.bit_rep then r.bit_size
          else ctz64 (l.bit_rep ^^^ r.bit_rep)) (min l.bit_size r.bit_size) +
        r.bit_rep / 2 ^ (min (if l.bit_rep = r.bit_rep then r.bit_size
          else ctz64 (l.bit_rep ^^^ r.bit_rep)) (min l.bit_size r.bit_size)) % 2 + 1)),
        2 * min (if l.bit_rep = r.bit_rep then r.bit_size
          else ctz64 (l.bit_rep ^^^ r.bit_rep)) (min l.bit_size r.bit_size) +
        r.bit_rep / 2 ^ (min (if l.bit_rep = r.bit_rep then r.bit_size
          else ctz64 (l.bit_rep ^^^ r.bit_rep)) (min l.bit_size r.bit_size)) % 2,
        r.label, l.start, r.stop⟩ := by
  have htop : l.bit_rep.testBit 63 = false := Nat.testBit_lt_two_pow hl
  have hsel : (if l.bit_rep ≠ r.bit_rep then ctz64 (l.bit_rep ^^^ r.bit_rep)
      else r.bit_size)
      = (if l.bit_rep = r.bit_rep then r.bit_size else ctz64 (l.bit_rep ^^^ r.bit_rep)) := by
    by_cases h : l.bit_rep = r.bit_rep <;> simp [h]
  unfold core_compress
  simp only [htop, Bool.false_eq_true, if_false, hsel]
  have hdlt : min (if l.bit_rep = r.bit_rep then r.bit_size
      else ctz64 (l.bit_rep ^^^ r.bit_rep)) (min l.bit_size r.bit_size) < 2 ^ 32 :=
    lt_of_le_of_lt (le_trans (min_le_right _ _) (min_le_right _ _)) hrs
  have hble : (r.bit_rep >>> min (if l.bit_rep = r.bit_rep then r.bit_size
      else ctz64 (l.bit_rep ^^^ r.bit_rep)) (min l.bit_size r.bit_size)) &&& 1 ≤ 1 :=
    Nat.and_le_right
  have hbit : (r.bit_rep >>> min (if l.bit_rep = r.bit_rep then r.bit_size
      else ctz64 (l.bit_rep ^^^ r.bit_rep)) (min l.bit_size r.bit_size)) &&& 1
      = r.bit_rep / 2 ^ (min (if l.bit_rep = r.bit_rep then r.bit_size
        else ctz64 (l.bit_rep ^^^ r.bit_rep)) (min l.bit_size r.bit_size)) % 2 := by
    rw [Nat.shiftRight_eq_div_pow, Nat.and_one_is_mod]
  have hmod2 : (2 * min (if l.bit_rep = r.bit_rep then r.bit_size
      else ctz64 (l.bit_rep ^^^ r.bit_rep)) (min l.bit_size r.bit_size) +
      r.bit_rep / 2 ^ (min (if l.bit_rep = r.bit_rep then r.bit_size
        else ctz64 (l.bit_rep ^^^ r.bit_rep)) (min l.bit_size r.bit_size)) % 2) % 2 ^ 64
      = 2 * min (if l.bit_rep = r.bit_rep then r.bit_size
        else ctz64 (l.bit_rep ^^^ r.bit_rep)) (min l.bit_size r.bit_size) +
        r.bit_rep / 2 ^ (min (if l.bit_rep = r.bit_rep then r.bit_size
          else ctz64 (l.bit_rep ^^^ r.bit_rep)) (min l.bit_size r.bit_size)) % 2 :=
    Nat.mod_eq_of_lt (by omega)
  simp only [hbit, hmod2]
  rw [← bs_formula _ (by omega)]

/-- C6 witness at concrete upper-level cores. -/
theorem C6_core_compress_upper_witness :
    ((Core.mk 4 5 3 7 9).bit_rep < 2 ^ 63 ∧ (Core.mk 4 9 8 2 11).bit_rep < 2 ^ 64 ∧
      (Core.mk 4 5 3 7 9).bit_size < 2 ^ 32 ∧ (Core.mk 4 9 8 2 11).bit_size < 2 ^ 32) ∧
    core_compress ⟨4, 5, 3, 7, 9⟩ ⟨4, 9, 8, 2, 11⟩ =
      ⟨max 2 (Nat.clog 2 (2 * min (if (5 : Nat) = 9 then 4
          else ctz64 (5 ^^^ 9)) (min 4 4) +
        9 / 2 ^ (min (if (5 : Nat) = 9 then 4 else ctz64 (5 ^^^ 9)) (min 4 4)) % 2 + 1)),
        2 * min (if (5 : Nat) = 9 then 4 else ctz64 (5 ^^^ 9)) (min 4 4) +
        9 / 2 ^ (min (if (5 : Nat) = 9 then 4 else ctz64 (5 ^^^ 9)) (min 4 4)) % 2,
        8, 7, 11⟩ :=
  ⟨⟨by decide, by decide, by decide, by decide⟩,
    C6_core_compress_upper ⟨4, 5, 3, 7, 9⟩ ⟨4, 9, 8, 2, 11⟩
      (by decide) (by decide) (by decide) (by decide)⟩

/-! ### Claim C7 -/

/-- C7: in the level-1 forward parser, whenever the scan step at position
`i` emits anything while the previous-core end `it2` satisfies `it2 < i`
and the gap guard `last_invalid < it2 - 1` holds, the step emits exactly
an SSEQ connector core spanning `[it2-1, i+1)` (offset-shifted) followed
immediately by the pattern core starting at `i`; and from a state whose
`it2` still holds the past-the-end sentinel (as at scan start, so before
the first pattern core) at most the pattern core itself is emitted —
never a back-fill.  The last conjunct records that `parse1` starts its
scan in the sentinel state `it2 = end`, `last_invalid = -1`. -/
theorem C7_sseq_backfill (s : List Nat) (off i : Nat) (st : P1St) :
    ((parse1Step s off i st).1 ≠ [] → st.it2 < i → st.lastInvalid < (st.it2 : Int) - 1 →
      ∃ pat : Core,
        (parse1Step s off i st).1 =
          [init_core1 s (st.it2 - 1) (i - st.it2 + 2) (st.it2 - 1 + off) (i + 1 + off),
            pat] ∧ pat.start = i + off) ∧
    (s.length ≤ st.it2 → i + 2 < s.length → (parse1Step s off i st).1.length ≤ 1) ∧
    parse1 s off = parse1Go s off s.length 0 ⟨s.length, -1⟩ := by
  refine ⟨?_, ?_, rfl⟩
  · intro hne h1 h2
    have hs : sseq1 s off i st =
        [init_core1 s (st.it2 - 1) (i - st.it2 + 2) (st.it2 - 1 + off) (i + 1 + off)] := by
      unfold sseq1
      rw [if_pos ⟨h1, h2⟩]
    simp only [parse1Step] at hne ⊢
    split_ifs at hne ⊢
    · exact absurd rfl hne
    · exact absurd rfl hne
    · rw [hs]
      exact ⟨_, rfl, rfl⟩
    · rw [hs]
      exact ⟨_, rfl, rfl⟩
    · exact absurd rfl hne
    · rw [hs]
      exact ⟨_, rfl, rfl⟩
    · exact absurd rfl hne
  · intro hit hi
    have hs0 : sseq1 s off i st = [] := by
      unfold sseq1
      rw [if_neg]
      rintro ⟨hlt, _⟩
      omega
    simp only [parse1Step]
    split_ifs <;> simp [hs0]

/-- C7 witness: an LMIN emission at position 4 of "TACCTACC" from a state
recording a previous core ending at 3 and no invalid symbol. -/
theorem C7_sseq_backfill_witness :
    ((parse1Step [84, 65, 67, 67, 84, 65, 67, 67] 0 4 ⟨3, -1⟩).1 ≠ [] ∧
      (3 : Nat) < 4 ∧ (-1 : Int) < (3 : Nat) - 1) ∧
    ∃ pat : Core,
      (parse1Step [84, 65, 67, 67, 84, 65, 67, 67] 0 4 ⟨3, -1⟩).1 =
        [init_core1 [84, 65, 67, 67, 84, 65, 67, 67] 2 3 2 5, pat] ∧ pat.start = 4 :=
  ⟨⟨by decide, by decide, by decide⟩,
    (C7_sseq_backfill [84, 65, 67, 67, 84, 65, 67, 67] 0 4 ⟨3, -1⟩).1
      (by decide) (by decide) (by decide)⟩

/-! ### Claim C2 -/

theorem toLE_length : ∀ k n : Nat, (toLE k n).length = k := by
  intro k
  induction k with
  | zero => intro n; rfl
  | succ k ih => intro n; simp [toLE, ih]

theorem fromLE_toLE : ∀ k n : Nat, fromLE (toLE k n) = n % 256 ^ k := by
  intro k
  induction k with
  | zero => intro n; simp [toLE, fromLE, Nat.mod_one]
  | succ k ih =>
    intro n
    simp only [toLE, fromLE, ih]
    rw [pow_succ', Nat.mod_mul]

theorem encCore_length (c : Core) : (encCore c).length = 40 := by
  simp [encCore, toLE_length]

theorem flat_length (cs : List Core) : ((cs.map encCore).flatten).length = 40 * cs.length := by
  induction cs with
  | nil => simp
  | cons c t ih => simp [encCore_length, ih]; ring

theorem decCore_enc (c : Core) (rest : List Nat)
    (h1 : c.bit_size < 2 ^ 32) (h2 : c.bit_rep < 2 ^ 64) (h3 : c.label < 2 ^ 32)
    (h4 : c.start < 2 ^ 64) (h5 : c.stop < 2 ^ 64) :
    decCore (encCore c ++ rest) = c := by
  obtain ⟨bs, rep, lab, st, en⟩ := c
  simp only at h1 h2 h3 h4 h5
  have e4 : encCore ⟨bs, rep, lab, st, en⟩ ++ rest =
      toLE 4 bs ++ ([0, 0, 0, 0] ++ (toLE 8 rep ++ (toLE 4 lab ++
        ([0, 0, 0, 0] ++ (toLE 8 st ++ (toLE 8 en ++ rest)))))) := by
    simp [encCore]
  have e8 : encCore ⟨bs, rep, lab, st, en⟩ ++ rest =
      (toLE 4 bs ++ [0, 0, 0, 0]) ++ (toLE 8 rep ++ (toLE 4 lab ++
        ([0, 0, 0, 0] ++ (toLE 8 st ++ (toLE 8 en ++ rest))))) := by
    simp [encCore]
  have e16 : encCore ⟨bs, rep, lab, st, en⟩ ++ rest =
      ((toLE 4 bs ++ [0, 0, 0, 0]) ++ toLE 8 rep) ++ (toLE 4 lab ++
        ([0, 0, 0, 0] ++ (toLE 8 st ++ (toLE 8 en ++ rest)))) := by
    simp [encCore]
  have e24 : encCore ⟨bs, rep, lab, st, en⟩ ++ rest =
      (((toLE 4 bs ++ [0, 0, 0, 0]) ++ toLE 8 rep) ++ (toLE 4 lab ++ [0, 0, 0, 0])) ++
        (toLE 8 st ++ (toLE 8 en ++ rest)) := by
    simp [encCore]
  have e32 : encCore ⟨bs, rep, lab, st, en⟩ ++ rest =
      ((((toLE 4 bs ++ [0, 0, 0, 0]) ++ toLE 8 rep) ++ (toLE 4 lab ++ [0, 0, 0, 0])) ++
        toLE 8 st) ++ (toLE 8 en ++ rest) := by
    simp [encCore]
  have p32 : (256 : Nat) ^ 4 = 2 ^ 32 := by norm_num
  have p64 : (256 : Nat) ^ 8 = 2 ^ 64 := by norm_num
  have f1 : fromLE ((encCore ⟨bs, rep, lab, st, en⟩ ++ rest).take 4) = bs := by
    rw [e4, List.take_left' (toLE_length 4 bs), fromLE_toLE, p32, Nat.mod_eq_of_lt h1]
  have f2 : fromLE (((encCore ⟨bs, rep, lab, st, en⟩ ++ rest).drop 8).take 8) = rep := by
    rw [e8, List.drop_left' (by simp [toLE_length]),
      List.take_left' (toLE_length 8 rep), fromLE_toLE, p64, Nat.mod_eq_of_lt h2]
  have f3 : fromLE (((encCore ⟨bs, rep, lab, st, en⟩ ++ rest).drop 16).take 4) = lab := by
    rw [e16, List.drop_left' (by simp [toLE_length]),
      List.take_left' (toLE_length 4 lab), fromLE_toLE, p32, Nat.mod_eq_of_lt h3]
  have f4 : fromLE (((encCore ⟨bs, rep, lab, st, en⟩ ++ rest).drop 24).take 8) = st := by
    rw [e24, List.drop_left' (by simp [toLE_length]),
      List.take_left' (toLE_length 8 st), fromLE_toLE, p64, Nat.mod_eq_of_lt h4]
  have f5 : fromLE (((encCore ⟨bs, rep, lab, st, en⟩ ++ rest).drop 32).take 8) = en := by
    rw [e32, List.drop_left' (by simp [toLE_length]),
      List.take_left' (toLE_length 8 en), fromLE_toLE, p64, Nat.mod_eq_of_lt h5]
  unfold decCore
  rw [f1, f2, f3, f4, f5]

theorem decCores_enc : ∀ cs : List Core,
    (∀ c ∈ cs, c.bit_size < 2 ^ 32 ∧ c.bit_rep < 2 ^ 64 ∧ c.label < 2 ^ 32 ∧
      c.start < 2 ^ 64 ∧ c.stop < 2 ^ 64) →
    ∀ rest : List Nat, decCores cs.length ((cs.map encCore).flatten ++ rest) = cs := by
  intro cs
  induction cs with
  | nil => intro h rest; rfl
  | cons c t ih =>
    intro h rest
    have hflat : ((c :: t).map encCore).flatten ++ rest =
        encCore c ++ ((t.map encCore).flatten ++ rest) := by
      simp
    simp only [List.length_cons, decCores, hflat]
    have hc := h c (List.mem_cons_self c t)
    rw [decCore_enc c _ hc.1 hc.2.1 hc.2.2.1 hc.2.2.2.1 hc.2.2.2.2,
      List.drop_left' (encCore_length c)]
    rw [ih (fun x hx => h x (List.mem_cons_of_mem c hx)) rest]

/-- C2: writing any parse container with `write_lps` and reading the
written bytes back with `init_lps3` yields a parse whose level, size and
every core's `bit_size`, `bit_rep`, `label`, `start` and `end` equal the
original's.  The hypotheses are exactly the C type invariants
(`int` level, `int` size, `uint32`/`uint64` core fields). -/
theorem C2_write_read_roundtrip (lp : Lps)
    (hlvl1 : -2 ^ 31 ≤ lp.level) (hlvl2 : lp.level < 2 ^ 31)
    (hsz : lp.cores.length < 2 ^ 31)
    (hb : ∀ c ∈ lp.cores, c.bit_size < 2 ^ 32 ∧ c.bit_rep < 2 ^ 64 ∧ c.label < 2 ^ 32 ∧
      c.start < 2 ^ 64 ∧ c.stop < 2 ^ 64) :
    init_lps3 (write_lps lp) = some lp := by
  obtain ⟨L, cs⟩ := lp
  simp only at hlvl1 hlvl2 hsz hb
  have hszN : (((cs.length : Int)) % (4294967296 : Int)).toNat = cs.length := by omega
  have hlvlN : ((L % (2 ^ 32 : Int)).toNat : Int) = L % (2 ^ 32 : Int) := by omega
  have hw : write_lps ⟨L, cs⟩ =
      toLE 4 (L % (2 ^ 32 : Int)).toNat ++ (toLE 4 cs.length ++ (cs.map encCore).flatten) := by
    simp [write_lps, hszN]
  have hlen : (write_lps ⟨L, cs⟩).length = 8 + 40 * cs.length := by
    rw [hw, List.length_append, List.length_append, toLE_length, toLE_length, flat_length]
    omega
  have hlvl32 : (L % (2 ^ 32 : Int)).toNat < 2 ^ 32 := by omega
  have hd1 : decInt32 (write_lps ⟨L, cs⟩) = L := by
    unfold decInt32
    rw [hw, List.take_left' (toLE_length 4 _), fromLE_toLE]
    rw [Nat.mod_eq_of_lt (by omega : (L % (2 ^ 32 : Int)).toNat < 256 ^ 4)]
    dsimp only
    split_ifs with hc <;> omega
  have hd2 : decInt32 ((write_lps ⟨L, cs⟩).drop 4) = (cs.length : Int) := by
    unfold decInt32
    rw [hw, List.drop_left' (toLE_length 4 _), List.take_left' (toLE_length 4 _), fromLE_toLE]
    rw [Nat.mod_eq_of_lt (by omega : cs.length < 256 ^ 4)]
    dsimp only
    split_ifs with hc <;> omega
  have hd8 : (write_lps ⟨L, cs⟩).drop 8 = (cs.map encCore).flatten := by
    rw [hw, show toLE 4 (L % (2 ^ 32 : Int)).toNat ++ (toLE 4 cs.length ++
        (cs.map encCore).flatten) = (toLE 4 (L % (2 ^ 32 : Int)).toNat ++ toLE 4 cs.length) ++
        (cs.map encCore).flatten from by simp,
      List.drop_left' (by simp [toLE_length])]
  unfold init_lps3
  rw [if_neg (by omega), hd1, hd2]
  by_cases h0 : cs.length = 0
  · rw [if_pos (by exact_mod_cast h0)]
    have : cs = [] := List.length_eq_zero.mp h0
    subst this
    rfl
  · rw [if_neg (by exact_mod_cast h0), if_neg (by omega), if_neg (by
      rw [hd8, flat_length]
      omega)]
    rw [hd8]
    have : ((cs.length : Int)).toNat = cs.length := by omega
    rw [this]
    have hdc := decCores_enc cs hb []
    rw [List.append_nil] at hdc
    rw [hdc]

/-- C2 witness: round-trip of a concrete two-core container. -/
theorem C2_write_read_roundtrip_witness :
    ((-2 ^ 31 ≤ (Lps.mk 2 [⟨6, 97, 97, 0, 3⟩, ⟨8, 161, 161, 2, 6⟩]).level ∧
      (Lps.mk 2 [⟨6, 97, 97, 0, 3⟩, ⟨8, 161, 161, 2, 6⟩]).level < 2 ^ 31 ∧
      (Lps.mk 2 [⟨6, 97, 97, 0, 3⟩, ⟨8, 161, 161, 2, 6⟩]).cores.length < 2 ^ 31 ∧
      (∀ c ∈ (Lps.mk 2 [⟨6, 97, 97, 0, 3⟩, ⟨8, 161, 161, 2, 6⟩]).cores,
        c.bit_size < 2 ^ 32 ∧ c.bit_rep < 2 ^ 64 ∧ c.label < 2 ^ 32 ∧
          c.start < 2 ^ 64 ∧ c.stop < 2 ^ 64)) ∧
    init_lps3 (write_lps ⟨2, [⟨6, 97, 97, 0, 3⟩, ⟨8, 161, 161, 2, 6⟩]⟩) =
      some ⟨2, [⟨6, 97, 97, 0, 3⟩, ⟨8, 161, 161, 2, 6⟩]⟩) :=
  ⟨⟨by decide, by decide, by decide, by decide⟩,
    C2_write_read_roundtrip ⟨2, [⟨6, 97, 97, 0, 3⟩, ⟨8, 161, 161, 2, 6⟩]⟩
      (by decide) (by decide) (by decide) (by decide)⟩

/-! ### Claim C3 -/

theorem getb_reverse (s : List Nat) (j : Nat) (hj : j < s.length) :
    getb s.reverse j = getb s (s.length - 1 - j) := by
  unfold getb
  rw [List.getD_eq_getElem?_getD, List.getD_eq_getElem?_getD, List.getElem?_reverse hj]

theorem rc_rev (s : List Nat) (j : Nat) (hj : j < s.length) :
    rc_at s.reverse j = rc_at s (s.length - 1 - j) := by
  unfold rc_at
  rw [getb_reverse s j hj]

theorem rc_at_ne_neg_one (s : List Nat) (i : Nat) : rc_at s i ≠ -1 :=
  rc_alphabet_ne_neg_one _

theorem runLen2Aux_le (s : List Nat) : ∀ fuel t, runLen2Aux s fuel t ≤ fuel := by
  intro fuel
  induction fuel with
  | zero => intro t; exact Nat.le_refl 0
  | succ fuel ih =>
    intro t
    simp only [runLen2Aux]
    split_ifs with h
    · exact Nat.succ_le_succ (ih (t + 1))
    · exact Nat.zero_le _

/-- The equal-run loops of the two RC parsers count the same number of
iterations: reading leftwards from index `u` in `s` is reading rightwards
from index `length - 1 - u` in the reversal of `s`. -/
theorem runLen_mirror (s : List Nat) :
    ∀ fuel t, 1 ≤ t →
      runLen2Aux s.reverse fuel t = runLen2rAux s fuel ((s.length : Int) - 1 - t) := by
  intro fuel
  induction fuel with
  | zero => intro t ht; rfl
  | succ fuel ih =>
    intro t ht
    simp only [runLen2Aux, runLen2rAux]
    by_cases hlt : t < s.length
    · have h1 : rcI s ((s.length : Int) - 1 - t) = rc_at s.reverse t := by
        unfold rcI getbI
        rw [if_pos (by omega : (0 : Int) ≤ (s.length : Int) - 1 - t),
          (by omega : ((s.length : Int) - 1 - (t : Nat)).toNat = s.length - 1 - t),
          rc_rev s t hlt]
        rfl
      have h2 : rcI s ((s.length : Int) - 1 - t + 1) = rc_at s.reverse (t - 1) := by
        unfold rcI getbI
        rw [if_pos (by omega : (0 : Int) ≤ (s.length : Int) - 1 - t + 1),
          (by omega : ((s.length : Int) - 1 - (t : Nat) + 1).toNat = s.length - 1 - (t - 1)),
          rc_rev s (t - 1) (by omega)]
        rfl
      by_cases hc : rc_at s.reverse (t - 1) = rc_at s.reverse t
      · rw [if_pos ⟨(by rw [List.length_reverse]; exact hlt : t < s.reverse.length), hc⟩,
          if_pos ⟨(by omega : (0 : Int) ≤ (s.length : Int) - 1 - t),
            (by rw [h1, h2]; exact hc)⟩,
          ih (t + 1) (by omega),
          (by push_cast; ring :
            (s.length : Int) - 1 - ((t + 1 : Nat) : Int) = (s.length : Int) - 1 - (t : Nat) - 1)]
      · rw [if_neg (fun hq => hc hq.2),
          if_neg (fun hq => hc (by rw [← h2, ← h1]; exact hq.2))]
    · have hlt' : ¬ t < s.reverse.length := by rw [List.length_reverse]; exact hlt
      rw [if_neg (fun hq => hlt' hq.1), if_neg (fun hq => absurd hq.1 (by omega))]

/-- The RINT run of the forward scan of the reversal equals the RINT run
of the right-to-left scan at the mirrored position. -/
theorem runLen2_rev (s : List Nat) (i q : Nat) (hn : i + q + 3 = s.length) :
    runLen2 s.reverse (i + 2) = runLen2r s (((q + 2 : Nat) : Int) - 2) := by
  unfold runLen2 runLen2r
  rw [(by rw [List.length_reverse]; omega : s.reverse.length - (i + 2) = q + 1),
    (by push_cast; omega :
      (((q + 2 : Nat) : Int) - 2) = (s.length : Int) - 1 - ((i + 2 : Nat) : Int)),
    (by push_cast; omega :
      ((s.length : Int) - 1 - ((i + 2 : Nat) : Int) + 1).toNat = q + 1)]
  exact runLen_mirror s (q + 1) (i + 2) (by omega)

theorem runLen2_rev_le (s : List Nat) (i q : Nat) (hn : i + q + 3 = s.length) :
    runLen2 s.reverse (i + 2) ≤ q + 1 := by
  unfold runLen2
  rw [(by rw [List.length_reverse]; omega : s.reverse.length - (i + 2) = q + 1)]
  exact runLen2Aux_le s.reverse (q + 1) (i + 2)

theorem P1St_eta_inv (st : P1St) (h : st.lastInvalid = -1) : st = ⟨st.it2, -1⟩ := by
  rw [← h]

/-- SSEQ connector mirror: when the forward scan of the reversal back-fills
a connector core, the right-to-left parser back-fills one whose span is
shrunk by one on each side, and conversely. -/
theorem sseq_mirror (s : List Nat) (i q it2h : Nat)
    (hn : i + q + 3 = s.length) (h1 : 1 ≤ it2h) :
    List.Forall₂ spanRel (sseq2 s.reverse 0 i ⟨it2h, -1⟩)
      (if ((q + 2 : Nat) : Int) < (s.length : Int) - 1 - (it2h : Nat) then
        [init_core2 s ((s.length : Int) - 1 - (it2h : Nat) + 1).toNat
          ((s.length : Int) - 1 - (it2h : Nat) - ((q + 2 : Nat) : Int) + 2).toNat
          ((s.length : Int) - ((s.length : Int) - 1 - (it2h : Nat)) - 1 + ((0 : Nat) : Int)).toNat
          ((s.length : Int) - ((q + 2 : Nat) : Int) - 1 + ((0 : Nat) : Int)).toNat]
      else []) := by
  unfold sseq2
  dsimp only
  by_cases hS : it2h < i
  · rw [if_pos ⟨hS, (by omega : (-1 : Int) < (it2h : Nat) - 1)⟩,
      if_pos (by omega : ((q + 2 : Nat) : Int) < (s.length : Int) - 1 - (it2h : Nat))]
    refine List.Forall₂.cons ?_ List.Forall₂.nil
    simp only [spanRel, init_core2_start, init_core2_stop]
    omega
  · rw [if_neg (fun hq => hS hq.1),
      if_neg (by omega : ¬ ((q + 2 : Nat) : Int) < (s.length : Int) - 1 - (it2h : Nat))]
    exact List.Forall₂.nil

/-- One-step mirror of the two RC parsers: at forward index `i` of the
reversal and right-to-left position `q + 2 = length - 1 - i` of `s`, with
states related by `it2s = length - 1 - it2h`, both steps emit span-related
core lists and re-establish the state relation.  At the very first step
(`i = 0`) the right-to-left parser must not fire its boundary LMAX test. -/
theorem parse2_step_mirror (s : List Nat) (i q it2h : Nat)
    (hn : i + q + 3 = s.length) (h1 : 1 ≤ it2h)
    (hb : i = 0 → ¬ rlBoundaryLMAX s) :
    List.Forall₂ spanRel (parse2Step s.reverse 0 i ⟨it2h, -1⟩).1
        (parse2rStep s 0 (q + 2) ((s.length : Int) - 1 - (it2h : Nat))).1 ∧
      (parse2Step s.reverse 0 i ⟨it2h, -1⟩).2.lastInvalid = -1 ∧
      1 ≤ (parse2Step s.reverse 0 i ⟨it2h, -1⟩).2.it2 ∧
      (parse2rStep s 0 (q + 2) ((s.length : Int) - 1 - (it2h : Nat))).2 =
        (s.length : Int) - 1 - ((parse2Step s.reverse 0 i ⟨it2h, -1⟩).2.it2 : Int) := by
  have e0 : rc_at s.reverse i = rc_at s (q + 2) := by
    rw [rc_rev s i (by omega)]
    congr 1
    omega
  have e1 : rc_at s.reverse (i + 1) = rc_at s (q + 2 - 1) := by
    rw [rc_rev s (i + 1) (by omega)]
    congr 1
    omega
  have e2 : rc_at s.reverse (i + 2) = rc_at s (q + 2 - 2) := by
    rw [rc_rev s (i + 2) (by omega)]
    congr 1
    omega
  have erun := runLen2_rev s i q hn
  have hle := runLen2_rev_le s i q hn
  have hsseq := sseq_mirror s i q it2h hn h1
  by_cases hA : rc_at s (q + 2) = rc_at s (q + 2 - 1)
  · -- both parsers skip an equal adjacent pair
    have hF : parse2Step s.reverse 0 i ⟨it2h, -1⟩ = ([], ⟨it2h, -1⟩) := by
      simp only [parse2Step]
      rw [if_neg (rc_at_ne_neg_one s.reverse i),
        if_pos (show rc_at s.reverse i = rc_at s.reverse (i + 1) by rw [e0, e1]; exact hA)]
    have hR : parse2rStep s 0 (q + 2) ((s.length : Int) - 1 - (it2h : Nat)) =
        ([], (s.length : Int) - 1 - (it2h : Nat)) := by
      simp only [parse2rStep]
      rw [if_pos hA]
    rw [hF, hR]
    exact ⟨List.Forall₂.nil, rfl, h1, rfl⟩
  · by_cases hB : rc_at s (q + 2 - 1) = rc_at s (q + 2 - 2)
    · by_cases hG : (0 : Int) ≤ ((q + 2 : Nat) : Int) - 2 -
          ((runLen2r s (((q + 2 : Nat) : Int) - 2) : Nat) : Int)
      · -- RINT: both emit a run core
        have hGf : i + 2 + runLen2 s.reverse (i + 2) ≠ s.reverse.length := by
          rw [List.length_reverse, erun]
          omega
        have hF : parse2Step s.reverse 0 i ⟨it2h, -1⟩ =
            (sseq2 s.reverse 0 i ⟨it2h, -1⟩ ++
              [init_core2 s.reverse i (2 + (1 + runLen2 s.reverse (i + 2))) (i + 0)
                (i + 2 + (1 + runLen2 s.reverse (i + 2)) + 0)],
              ⟨i + 2 + (1 + runLen2 s.reverse (i + 2)), -1⟩) := by
          simp only [parse2Step]
          rw [if_neg (rc_at_ne_neg_one s.reverse i),
            if_neg (show ¬ rc_at s.reverse i = rc_at s.reverse (i + 1) by
              rw [e0, e1]; exact hA),
            if_pos (And.intro
              (show rc_at s.reverse (i + 1) = rc_at s.reverse (i + 2) by
                rw [e1, e2]; exact hB) hGf)]
        have hR : parse2rStep s 0 (q + 2) ((s.length : Int) - 1 - (it2h : Nat)) =
            ((if ((q + 2 : Nat) : Int) < (s.length : Int) - 1 - (it2h : Nat) then
                [init_core2 s ((s.length : Int) - 1 - (it2h : Nat) + 1).toNat
                  ((s.length : Int) - 1 - (it2h : Nat) - ((q + 2 : Nat) : Int) + 2).toNat
                  ((s.length : Int) - ((s.length : Int) - 1 - (it2h : Nat)) - 1 +
                    ((0 : Nat) : Int)).toNat
                  ((s.length : Int) - ((q + 2 : Nat) : Int) - 1 + ((0 : Nat) : Int)).toNat]
              else []) ++
              [init_core2 s (q + 2) (2 + (1 + runLen2r s (((q + 2 : Nat) : Int) - 2)))
                ((s.length : Int) - ((q + 2 : Nat) : Int) - 1 + ((0 : Nat) : Int)).toNat
                ((s.length : Int) -
                    (((q + 2 : Nat) : Int) - 2 -
                      ((1 + runLen2r s (((q + 2 : Nat) : Int) - 2) : Nat) : Int)) -
                    1 + ((0 : Nat) : Int)).toNat],
              ((q + 2 : Nat) : Int) - 2 -
                ((1 + runLen2r s (((q + 2 : Nat) : Int) - 2) : Nat) : Int)) := by
          simp only [parse2rStep]
          rw [if_neg hA, if_pos (And.intro hB hG)]
        rw [hF, hR]
        refine ⟨List.rel_append hsseq (List.Forall₂.cons ?_ List.Forall₂.nil), rfl, ?_, ?_⟩
        · simp only [spanRel, init_core2_start, init_core2_stop]
          rw [erun]
          omega
        · show 1 ≤ i + 2 + (1 + runLen2 s.reverse (i + 2))
          omega
        · show ((q + 2 : Nat) : Int) - 2 -
              ((1 + runLen2r s (((q + 2 : Nat) : Int) - 2) : Nat) : Int) =
            (s.length : Int) - 1 - ((i + 2 + (1 + runLen2 s.reverse (i + 2)) : Nat) : Int)
          rw [erun]
          push_cast
          omega
      · -- equal pair at the head of the run but the run reaches the border
        have hGf : ¬ i + 2 + runLen2 s.reverse (i + 2) ≠ s.reverse.length := by
          have hle' := hle
          rw [erun] at hle'
          rw [List.length_reverse, erun]
          omega
        have hnl : ¬ rc_at s.reverse (i + 1) < rc_at s.reverse (i + 2) := by
          rw [e1, e2]
          omega
        have hng : ¬ rc_at s.reverse (i + 1) > rc_at s.reverse (i + 2) := by
          rw [e1, e2]
          omega
        have hF : parse2Step s.reverse 0 i ⟨it2h, -1⟩ = ([], ⟨it2h, -1⟩) := by
          simp only [parse2Step]
          rw [if_neg (rc_at_ne_neg_one s.reverse i),
            if_neg (show ¬ rc_at s.reverse i = rc_at s.reverse (i + 1) by
              rw [e0, e1]; exact hA),
            if_neg (fun hq => hGf hq.2),
            if_neg (fun hq => hnl hq.2)]
          by_cases hi : i = 0
          · rw [if_pos hi]
          · rw [if_neg hi, if_neg (fun hq => hng hq.2.2.1)]
        have hR : parse2rStep s 0 (q + 2) ((s.length : Int) - 1 - (it2h : Nat)) =
            ([], (s.length : Int) - 1 - (it2h : Nat)) := by
          simp only [parse2rStep]
          rw [if_neg hA, if_neg (fun hq => hG hq.2),
            if_neg (fun hq => absurd hq.2 (by omega)),
            if_neg (by omega : ¬ q + 2 = 0),
            if_neg (fun hq => absurd hq.2.2.1 (by omega))]
        rw [hF, hR]
        exact ⟨List.Forall₂.nil, rfl, h1, rfl⟩
    · by_cases hC : rc_at s (q + 2) > rc_at s (q + 2 - 1) ∧
          rc_at s (q + 2 - 1) < rc_at s (q + 2 - 2)
      · -- LMIN: both emit
        have hF : parse2Step s.reverse 0 i ⟨it2h, -1⟩ =
            (sseq2 s.reverse 0 i ⟨it2h, -1⟩ ++
              [init_core2 s.reverse i 3 (i + 0) (i + 3 + 0)], ⟨i + 3, -1⟩) := by
          simp only [parse2Step]
          rw [if_neg (rc_at_ne_neg_one s.reverse i),
            if_neg (show ¬ rc_at s.reverse i = rc_at s.reverse (i + 1) by
              rw [e0, e1]; exact hA),
            if_neg (fun hq => hB (by rw [← e1, ← e2]; exact hq.1)),
            if_pos (And.intro
              (show rc_at s.reverse i > rc_at s.reverse (i + 1) by rw [e0, e1]; exact hC.1)
              (show rc_at s.reverse (i + 1) < rc_at s.reverse (i + 2) by
                rw [e1, e2]; exact hC.2))]
        have hR : parse2rStep s 0 (q + 2) ((s.length : Int) - 1 - (it2h : Nat)) =
            ((if ((q + 2 : Nat) : Int) < (s.length : Int) - 1 - (it2h : Nat) then
                [init_core2 s ((s.length : Int) - 1 - (it2h : Nat) + 1).toNat
                  ((s.length : Int) - 1 - (it2h : Nat) - ((q + 2 : Nat) : Int) + 2).toNat
                  ((s.length : Int) - ((s.length : Int) - 1 - (it2h : Nat)) - 1 +
                    ((0 : Nat) : Int)).toNat
                  ((s.length : Int) - ((q + 2 : Nat) : Int) - 1 + ((0 : Nat) : Int)).toNat]
              else []) ++
              [init_core2 s (q + 2) 3
                ((s.length : Int) - ((q + 2 : Nat) : Int) - 1 + ((0 : Nat) : Int)).toNat
                ((s.length : Int) - (((q + 2 : Nat) : Int) - 3) - 1 + ((0 : Nat) : Int)).toNat],
              ((q + 2 : Nat) : Int) - 3) := by
          simp only [parse2rStep]
          rw [if_neg hA, if_neg (fun hq => hB hq.1), if_pos hC]
        rw [hF, hR]
        refine ⟨List.rel_append hsseq (List.Forall₂.cons ?_ List.Forall₂.nil), rfl, ?_, ?_⟩
        · simp only [spanRel, init_core2_start, init_core2_stop]
          omega
        · show 1 ≤ i + 3
          omega
        · show ((q + 2 : Nat) : Int) - 3 = (s.length : Int) - 1 - ((i + 3 : Nat) : Int)
          push_cast
          omega
      · by_cases hi : i = 0
        · -- first scanned position: the forward scan suppresses LMAX there
          subst hi
          have hnB := hb rfl
          have hLB : ¬ (0 ≤ ((q + 2 : Nat) : Int) - 3 ∧
              rc_at s (q + 2) < rc_at s (q + 2 - 1) ∧
              rc_at s (q + 2 - 1) > rc_at s (q + 2 - 2) ∧
              rc_at s (q + 2 + 1) ≤ rc_at s (q + 2) ∧
              rc_at s (q + 2 - 2) ≥ rc_at s (q + 2 - 3)) := by
            intro hq
            apply hnB
            unfold rlBoundaryLMAX
            obtain ⟨g0, g1, g2, g3, g4⟩ := hq
            have j1 : s.length - 1 = q + 2 := by omega
            have j2 : s.length - 2 = q + 2 - 1 := by omega
            have j3 : s.length - 3 = q + 2 - 2 := by omega
            have j4 : s.length - 4 = q + 2 - 3 := by omega
            have j5 : s.length = q + 2 + 1 := by omega
            refine ⟨by omega, ?_, ?_, ?_, ?_⟩
            · rw [j1, j2]; exact g1
            · rw [j2, j3]; exact g2
            · rw [j1, j5]; exact g3
            · rw [j3, j4]; exact g4
          have hF : parse2Step s.reverse 0 0 ⟨it2h, -1⟩ = ([], ⟨it2h, -1⟩) := by
            simp only [parse2Step]
            rw [if_neg (rc_at_ne_neg_one s.reverse 0),
              if_neg (show ¬ rc_at s.reverse 0 = rc_at s.reverse (0 + 1) by
                rw [e0, e1]; exact hA),
              if_neg (fun hq => hB (by rw [← e1, ← e2]; exact hq.1)),
              if_neg (fun hq => hC ⟨by rw [← e0, ← e1]; exact hq.1,
                by rw [← e1, ← e2]; exact hq.2⟩),
              if_pos trivial]
          have hR : parse2rStep s 0 (q + 2) ((s.length : Int) - 1 - (it2h : Nat)) =
              ([], (s.length : Int) - 1 - (it2h : Nat)) := by
            simp only [parse2rStep]
            rw [if_neg hA, if_neg (fun hq => hB hq.1), if_neg hC,
              if_neg (by omega : ¬ q + 2 = 0), if_neg hLB]
          rw [hF, hR]
          exact ⟨List.Forall₂.nil, rfl, h1, rfl⟩
        · have e4 : rc_at s.reverse (i - 1) = rc_at s (q + 2 + 1) := by
            rw [rc_rev s (i - 1) (by omega)]
            congr 1
            omega
          by_cases hq0 : q = 0
          · -- LMAX guard fails on both sides at the leftmost position
            have hF : parse2Step s.reverse 0 i ⟨it2h, -1⟩ = ([], ⟨it2h, -1⟩) := by
              simp only [parse2Step]
              rw [if_neg (rc_at_ne_neg_one s.reverse i),
                if_neg (show ¬ rc_at s.reverse i = rc_at s.reverse (i + 1) by
                  rw [e0, e1]; exact hA),
                if_neg (fun hq => hB (by rw [← e1, ← e2]; exact hq.1)),
                if_neg (fun hq => hC ⟨by rw [← e0, ← e1]; exact hq.1,
                  by rw [← e1, ← e2]; exact hq.2⟩),
                if_neg hi,
                if_neg (fun hq => absurd hq.1 (by rw [List.length_reverse]; omega))]
            have hR : parse2rStep s 0 (q + 2) ((s.length : Int) - 1 - (it2h : Nat)) =
                ([], (s.length : Int) - 1 - (it2h : Nat)) := by
              simp only [parse2rStep]
              rw [if_neg hA, if_neg (fun hq => hB hq.1), if_neg hC,
                if_neg (by omega : ¬ q + 2 = 0),
                if_neg (fun hq => absurd hq.1 (by omega))]
            rw [hF, hR]
            exact ⟨List.Forall₂.nil, rfl, h1, rfl⟩
          · have e3 : rc_at s.reverse (i + 3) = rc_at s (q + 2 - 3) := by
              rw [rc_rev s (i + 3) (by omega)]
              congr 1
              omega
            by_cases hD : 0 ≤ ((q + 2 : Nat) : Int) - 3 ∧
                rc_at s (q + 2) < rc_at s (q + 2 - 1) ∧
                rc_at s (q + 2 - 1) > rc_at s (q + 2 - 2) ∧
                rc_at s (q + 2 + 1) ≤ rc_at s (q + 2) ∧
                rc_at s (q + 2 - 2) ≥ rc_at s (q + 2 - 3)
            · -- LMAX: both emit
              obtain ⟨g0, g1, g2, g3, g4⟩ := hD
              have hF : parse2Step s.reverse 0 i ⟨it2h, -1⟩ =
                  (sseq2 s.reverse 0 i ⟨it2h, -1⟩ ++
                    [init_core2 s.reverse i 3 (i + 0) (i + 3 + 0)], ⟨i + 3, -1⟩) := by
                simp only [parse2Step]
                rw [if_neg (rc_at_ne_neg_one s.reverse i),
                  if_neg (show ¬ rc_at s.reverse i = rc_at s.reverse (i + 1) by
                    rw [e0, e1]; exact hA),
                  if_neg (fun hq => hB (by rw [← e1, ← e2]; exact hq.1)),
                  if_neg (fun hq => hC ⟨by rw [← e0, ← e1]; exact hq.1,
                    by rw [← e1, ← e2]; exact hq.2⟩),
                  if_neg hi,
                  if_pos ⟨by rw [List.length_reverse]; omega,
                    by rw [e0, e1]; exact g1,
                    by rw [e1, e2]; exact g2,
                    by rw [e4, e0]; exact g3,
                    by rw [e2, e3]; exact g4⟩]
              have hR : parse2rStep s 0 (q + 2) ((s.length : Int) - 1 - (it2h : Nat)) =
                  ((if ((q + 2 : Nat) : Int) < (s.length : Int) - 1 - (it2h : Nat) then
                      [init_core2 s ((s.length : Int) - 1 - (it2h : Nat) + 1).toNat
                        ((s.length : Int) - 1 - (it2h : Nat) - ((q + 2 : Nat) : Int) + 2).toNat
                        ((s.length : Int) - ((s.length : Int) - 1 - (it2h : Nat)) - 1 +
                          ((0 : Nat) : Int)).toNat
                        ((s.length : Int) - ((q + 2 : Nat) : Int) - 1 +
                          ((0 : Nat) : Int)).toNat]
                    else []) ++
                    [init_core2 s (q + 2) 3
                      ((s.length : Int) - ((q + 2 : Nat) : Int) - 1 + ((0 : Nat) : Int)).toNat
                      ((s.length : Int) - (((q + 2 : Nat) : Int) - 3) - 1 +
                        ((0 : Nat) : Int)).toNat],
                    ((q + 2 : Nat) : Int) - 3) := by
                simp only [parse2rStep]
                rw [if_neg hA, if_neg (fun hq => hB hq.1), if_neg hC,
                  if_neg (by omega : ¬ q + 2 = 0), if_pos ⟨g0, g1, g2, g3, g4⟩]
              rw [hF, hR]
              refine ⟨List.rel_append hsseq (List.Forall₂.cons ?_ List.Forall₂.nil),
                rfl, ?_, ?_⟩
              · simp only [spanRel, init_core2_start, init_core2_stop]
                omega
              · show 1 ≤ i + 3
                omega
              · show ((q + 2 : Nat) : Int) - 3 = (s.length : Int) - 1 - ((i + 3 : Nat) : Int)
                push_cast
                omega
            · -- no pattern at this position on either side
              have hF : parse2Step s.reverse 0 i ⟨it2h, -1⟩ = ([], ⟨it2h, -1⟩) := by
                simp only [parse2Step]
                rw [if_neg (rc_at_ne_neg_one s.reverse i),
                  if_neg (show ¬ rc_at s.reverse i = rc_at s.reverse (i + 1) by
                    rw [e0, e1]; exact hA),
                  if_neg (fun hq => hB (by rw [← e1, ← e2]; exact hq.1)),
                  if_neg (fun hq => hC ⟨by rw [← e0, ← e1]; exact hq.1,
                    by rw [← e1, ← e2]; exact hq.2⟩),
                  if_neg hi,
                  if_neg (fun hq => hD ⟨by omega,
                    by rw [← e0, ← e1]; exact hq.2.1,
                    by rw [← e1, ← e2]; exact hq.2.2.1,
                    by rw [← e4, ← e0]; exact hq.2.2.2.1,
                    by rw [← e2, ← e3]; exact hq.2.2.2.2⟩)]
              have hR : parse2rStep s 0 (q + 2) ((s.length : Int) - 1 - (it2h : Nat)) =
                  ([], (s.length : Int) - 1 - (it2h : Nat)) := by
                simp only [parse2rStep]
                rw [if_neg hA, if_neg (fun hq => hB hq.1), if_neg hC,
                  if_neg (by omega : ¬ q + 2 = 0), if_neg hD]
              rw [hF, hR]
              exact ⟨List.Forall₂.nil, rfl, h1, rfl⟩

/-- Scan-loop mirror of the two RC parsers, by induction along the scan. -/
theorem parse2_go_mirror (s : List Nat) :
    ∀ f i it2h : Nat, f + i = s.length → 1 ≤ it2h →
      (i = 0 → ¬ rlBoundaryLMAX s) →
      List.Forall₂ spanRel (parse2Go s.reverse 0 f i ⟨it2h, -1⟩)
        (parse2rGo s 0 (f - 1) ((s.length : Int) - 1 - (it2h : Nat))) := by
  intro f
  induction f with
  | zero =>
    intro i it2h hn h1 hb
    exact List.Forall₂.nil
  | succ f ih =>
    intro i it2h hn h1 hb
    by_cases hstop : i + 2 < s.reverse.length
    · obtain ⟨q, rfl⟩ : ∃ q, f = q + 2 :=
        ⟨f - 2, by rw [List.length_reverse] at hstop; omega⟩
      rw [Nat.add_sub_cancel]
      simp only [parse2Go]
      rw [if_pos hstop]
      obtain ⟨hspan, hlast, hit1, hrel⟩ :=
        parse2_step_mirror s i q it2h (by rw [List.length_reverse] at hstop; omega) h1 hb
      simp only [parse2rGo]
      rw [P1St_eta_inv _ hlast, hrel]
      refine List.rel_append hspan ?_
      exact ih (i + 1) ((parse2Step s.reverse 0 i ⟨it2h, -1⟩).2.it2) (by omega) hit1
        (fun h0 => absurd h0 (Nat.succ_ne_zero i))
    · have hf01 : f = 0 ∨ f = 1 := by rw [List.length_reverse] at hstop; omega
      simp only [parse2Go]
      rw [if_neg hstop, Nat.add_sub_cancel]
      rcases hf01 with rfl | rfl
      · exact List.Forall₂.nil
      · exact List.Forall₂.nil

/-- C3: the claim that the forward scan of the literal reversal (header
variant) and the dedicated right-to-left parser of `src/lps.c` produce the
same cores is FALSE: on GGCG the two parsers do not even emit the same
number of cores (the right-to-left parser fires the boundary LMAX test at
the last position, reading the NUL one past the buffer, where the forward
scan of the reversal suppresses the test at its first position), and on
ATCAA both emit one core with the same span but different `bit_rep` and
`label` (the right-to-left parser builds the core by reading forward from
the match position instead of over the matched window). -/
theorem C3_counterexample :
    ((init_lps2 [71, 71, 67, 71]).cores.length = 0 ∧
      (init_lps2r [71, 71, 67, 71]).cores.length = 1) ∧
    ((init_lps2 [65, 84, 67, 65, 65]).cores.map fun c => (c.start, c.stop)) =
        ((init_lps2r [65, 84, 67, 65, 65]).cores.map fun c => (c.start, c.stop)) ∧
    ((init_lps2 [65, 84, 67, 65, 65]).cores.map fun c => (c.bit_rep, c.label)) ≠
        ((init_lps2r [65, 84, 67, 65, 65]).cores.map fun c => (c.bit_rep, c.label)) := by
  decide

/-- C3 (amended): on any input where the right-to-left RC parser of
`src/lps.c` does not fire its boundary LMAX test past the end of the
buffer, the two RC parses have the same number of cores, and
corresponding cores have related spans — pattern cores carry identical
spans (both parsers already record positions in the reversed frame, so no
coordinate transform applies), while SSEQ connector cores of the
right-to-left parser are shrunk by one position on each side.  The core
contents (`bit_rep`, `label`) may still differ, as the counterexample
shows. -/
theorem C3_rc_duality_spans (s : List Nat) (hB : ¬ rlBoundaryLMAX s) :
    (init_lps2 s).cores.length = (init_lps2r s).cores.length ∧
    List.Forall₂ spanRel (init_lps2 s).cores (init_lps2r s).cores := by
  have hmain : List.Forall₂ spanRel (parse2 s.reverse 0) (parse2r s 0) := by
    unfold parse2 parse2r
    rw [List.length_reverse]
    by_cases h0 : s.length = 0
    · rw [h0]
      exact List.Forall₂.nil
    · have h := parse2_go_mirror s s.length 0 s.length (by omega) (by omega) (fun _ => hB)
      rw [show (s.length : Int) - 1 - ((s.length : Nat) : Int) = -1 by omega] at h
      exact h
  exact ⟨hmain.length_eq, hmain⟩

/-- C3 witness: the amended span relation evaluated on ATCAA, where the
boundary-LMAX side condition holds. -/
theorem C3_rc_duality_spans_witness :
    ¬ rlBoundaryLMAX [65, 84, 67, 65, 65] ∧
    ((init_lps2 [65, 84, 67, 65, 65]).cores.length =
        (init_lps2r [65, 84, 67, 65, 65]).cores.length ∧
      List.Forall₂ spanRel (init_lps2 [65, 84, 67, 65, 65]).cores
        (init_lps2r [65, 84, 67, 65, 65]).cores) :=
  ⟨by decide, C3_rc_duality_spans [65, 84, 67, 65, 65] (by decide)⟩

/-! ### Claim C9 -/

/-- C9 counterexample: after the default initialiser, the
reverse-complement table maps the byte of the symbol N (78) to 0, not to
-1 as the claim states — the initialisation loop of `LCP_INIT2` resets
only the forward table, so unknown entries of `rc_alphabet` keep the
zero-initialised value of a C global. -/
theorem C9_counterexample :
    LCP_INIT2_rc_alphabet 78 = 0 ∧ ¬ LCP_INIT2_rc_alphabet 78 = -1 := by
  decide

/-- C9 (amended): after `LCP_INIT` runs from the initial process state,
the forward table maps A/a to 0, C/c to 1, G/g to 2, T/t to 3 and every
other byte below 128 to -1; the reverse-complement table maps A/a to 3,
C/c to 2, G/g to 1, T/t to 0 and leaves every other byte below 128 at
its zero-initialised value 0 (not -1), because the initialiser never
resets the reverse-complement table. -/
theorem C9_tables_after_init (c : Fin 128) :
    (LCP_INIT2_alphabet c.val =
      if c.val = 65 ∨ c.val = 97 then 0
      else if c.val = 67 ∨ c.val = 99 then 1
      else if c.val = 71 ∨ c.val = 103 then 2
      else if c.val = 84 ∨ c.val = 116 then 3
      else -1) ∧
    (LCP_INIT2_rc_alphabet c.val =
      if c.val = 65 ∨ c.val = 97 then 3
      else if c.val = 67 ∨ c.val = 99 then 2
      else if c.val = 71 ∨ c.val = 103 then 1
      else if c.val = 84 ∨ c.val = 116 then 0
      else 0) := by
  revert c
  decide

/-! ### Claim C8 -/

/-- C8: for a requested level at or below the current level, `lps_deepen`
returns 0 and leaves the container completely unchanged; for a request
above the current level it returns 1. -/
theorem C8_lps_deepen_noop (lp : Lps) (L : Int) :
    (L ≤ lp.level → lps_deepen lp L = (lp, 0)) ∧
    (lp.level < L → (lps_deepen lp L).2 = 1) := by
  constructor
  · intro h
    simp [lps_deepen, h]
  · intro h
    have h' : ¬ L ≤ lp.level := not_le.mpr h
    simp [lps_deepen, h']

/-- C8 witness at concrete containers. -/
theorem C8_lps_deepen_noop_witness :
    ((2 : Int) ≤ (Lps.mk 2 []).level ∧ lps_deepen ⟨2, []⟩ 2 = (⟨2, []⟩, 0)) ∧
    ((Lps.mk 1 []).level < 2 ∧ (lps_deepen ⟨1, []⟩ 2).2 = 1) :=
  ⟨⟨by decide, (C8_lps_deepen_noop ⟨2, []⟩ 2).1 (by decide)⟩,
    ⟨by decide, (C8_lps_deepen_noop ⟨1, []⟩ 2).2 (by decide)⟩⟩

/-! ### Claim C10 -/

theorem lpsEqGo_eq_one_iff :
    ∀ as' bs' : List Core, as'.length = bs'.length →
      (lpsEqGo as' bs' = 1 ↔ as'.map Core.bit_rep = bs'.map Core.bit_rep) := by
  intro as'
  induction as' with
  | nil =>
    intro bs' h
    cases bs' with
    | nil => simp [lpsEqGo]
    | cons b t => simp at h
  | cons a t ih =>
    intro bs' h
    cases bs' with
    | nil => simp at h
    | cons b t' =>
      simp only [List.length_cons, Nat.add_right_cancel_iff] at h
      by_cases hab : a.bit_rep = b.bit_rep
      · simp [lpsEqGo, core_neqb, hab, ih t' h]
      · simp [lpsEqGo, core_neqb, hab]

/-- C10: the packed-design parse equality `lps_eq` returns 1 exactly when
the two containers have the same size and every pair of corresponding
cores has equal `bit_rep`; it ignores `bit_size`, `label`, `start`,
`end` and the `level` field, so two parses whose cores differ only in
those fields still compare equal (second conjunct: a concrete such
pair). -/
theorem C10_lps_eq_iff :
    (∀ lhs rhs : Lps, lps_eq lhs rhs = 1 ↔
      (lhs.cores.length = rhs.cores.length ∧
        lhs.cores.map Core.bit_rep = rhs.cores.map Core.bit_rep)) ∧
    lps_eq ⟨1, [⟨6, 5, 7, 0, 3⟩]⟩ ⟨2, [⟨8, 5, 9, 10, 14⟩]⟩ = 1 := by
  constructor
  · intro lhs rhs
    unfold lps_eq
    by_cases h : lhs.cores.length = rhs.cores.length
    · simp [h, lpsEqGo_eq_one_iff _ _ h]
    · simp [h]
  · decide

end Lcp
